import Mathlib

/-!
Verification of the Figma-to-MJML conversion core.

This file gives a shallow embedding, in Lean 4, of the parts of the
repository that the specification's claims talk about:

* `src/lib/mjml-validator.js` — `validateAndCorrectMJML` and its three
  regex-rewriting passes (`fixInvalidAttributes`, `fixStructuralIssues`,
  `addRequiredAttributes`).  JavaScript strings are modelled as `List Char`
  and each global regex `replace` is modelled as a left-to-right scanner
  (`scanGo`) driven by a deterministic per-position matcher that mirrors the
  source regex including its lazy/greedy quantifier behaviour.
* `src/lib/multi-ai.js` — `generateMJMLWithFallback` (the provider fallback
  orchestrator), `generateEnhancedFallbackMJML`, `analyzeLayoutElements`,
  `generateIntelligentMJML` and `getContrastColor`.  Outbound provider calls
  are modelled by an oracle `env : String → Except String ProvResult`
  standing for `generateWithProvider`; a JavaScript exception is an
  `Except.error`.
* `src/lib/fallback-mjml.js` — `generateElementsFromLayout` and the element
  renderers it dispatches to.

Numeric design-data fields are modelled as integers (no claim exercises
fractional values); JavaScript `undefined`/missing fields are `Option`;
JavaScript truthiness tests on strings/numbers are modelled explicitly
(empty string and zero are falsy).
-/

namespace FigmaMjml

/-! ## Character-list utilities -/

/-- Boolean prefix test on character lists. -/
def pfx : List Char → List Char → Bool
  | [], _ => true
  | _ :: _, [] => false
  | a :: as, b :: bs => a == b && pfx as bs

/-- `containsSub w s` is true when `w` occurs as a contiguous substring
of `s` (at any position, including `s` itself). -/
def containsSub (w : List Char) : List Char → Bool
  | [] => pfx w []
  | c :: cs => pfx w (c :: cs) || containsSub w cs

/-- Number of positions of `s` at which `w` occurs as a prefix of the
corresponding suffix. -/
def countOcc (w : List Char) : List Char → Nat
  | [] => if pfx w [] then 1 else 0
  | c :: cs => (if pfx w (c :: cs) then 1 else 0) + countOcc w cs

theorem pfx_iff (w s : List Char) : pfx w s = true ↔ ∃ t, s = w ++ t := by
  induction w generalizing s with
  | nil => simp [pfx]
  | cons a as ih =>
    cases s with
    | nil => simp [pfx]
    | cons b bs =>
      simp only [pfx, Bool.and_eq_true, beq_iff_eq, ih, List.cons_append]
      constructor
      · rintro ⟨rfl, t, rfl⟩; exact ⟨t, rfl⟩
      · rintro ⟨t, h⟩
        cases h
        exact ⟨rfl, t, rfl⟩

theorem pfx_append (w t : List Char) : pfx w (w ++ t) = true :=
  (pfx_iff w (w ++ t)).mpr ⟨t, rfl⟩

theorem pfx_refl (w : List Char) : pfx w w = true := by
  simpa using pfx_append w []

theorem pfx_nil_right (w : List Char) (h : pfx w [] = true) : w = [] := by
  rcases (pfx_iff w []).mp h with ⟨t, ht⟩
  cases w with
  | nil => rfl
  | cons a as => simp at ht

theorem pfx_length_le (w s : List Char) (h : pfx w s = true) :
    w.length ≤ s.length := by
  rcases (pfx_iff w s).mp h with ⟨t, rfl⟩
  simp

theorem pfx_trans_append (w s t : List Char) (h : pfx w s = true) :
    pfx w (s ++ t) = true := by
  rcases (pfx_iff w s).mp h with ⟨u, rfl⟩
  rw [List.append_assoc]
  exact pfx_append w (u ++ t)

theorem pfx_of_take (w s : List Char) (h : s.take w.length = w) :
    pfx w s = true := by
  refine (pfx_iff w s).mpr ⟨s.drop w.length, ?_⟩
  conv_lhs => rw [← List.take_append_drop w.length s, h]

theorem pfx_take (w s : List Char) (h : pfx w s = true) :
    s.take w.length = w := by
  rcases (pfx_iff w s).mp h with ⟨t, rfl⟩
  simp

theorem containsSub_iff (w s : List Char) :
    containsSub w s = true ↔ ∃ u v, s = u ++ w ++ v := by
  induction s with
  | nil =>
    simp only [containsSub]
    constructor
    · intro h
      have := pfx_nil_right w h
      exact ⟨[], [], by simp [this]⟩
    · rintro ⟨u, v, huv⟩
      have : w = [] := by
        cases u <;> cases w <;> simp_all
      simp [this, pfx]
  | cons c cs ih =>
    simp only [containsSub, Bool.or_eq_true, ih]
    constructor
    · rintro (h | ⟨u, v, rfl⟩)
      · rcases (pfx_iff w (c :: cs)).mp h with ⟨t, ht⟩
        exact ⟨[], t, by simp [ht]⟩
      · exact ⟨c :: u, v, by simp⟩
    · rintro ⟨u, v, huv⟩
      cases u with
      | nil =>
        left
        exact (pfx_iff w (c :: cs)).mpr ⟨v, by simpa using huv⟩
      | cons x xs =>
        right
        refine ⟨xs, v, ?_⟩
        simp only [List.cons_append, List.cons.injEq] at huv
        exact huv.2

theorem containsSub_of_pfx (w s : List Char) (h : pfx w s = true) :
    containsSub w s = true := by
  rcases (pfx_iff w s).mp h with ⟨t, rfl⟩
  exact (containsSub_iff w (w ++ t)).mpr ⟨[], t, by simp⟩

theorem containsSub_append_left (w u v : List Char)
    (h : containsSub w u = true) : containsSub w (u ++ v) = true := by
  rcases (containsSub_iff w u).mp h with ⟨a, b, rfl⟩
  exact (containsSub_iff _ _).mpr ⟨a, b ++ v, by simp⟩

theorem containsSub_append_right (w u v : List Char)
    (h : containsSub w v = true) : containsSub w (u ++ v) = true := by
  rcases (containsSub_iff w v).mp h with ⟨a, b, rfl⟩
  exact (containsSub_iff _ _).mpr ⟨u ++ a, b, by simp⟩

theorem containsSub_cons (w : List Char) (c : Char) (s : List Char)
    (h : containsSub w s = true) : containsSub w (c :: s) = true := by
  simp [containsSub, h]

/-! ## The validator (`src/lib/mjml-validator.js`)

`validateAndCorrectMJML` applies three passes to the input text:
`fixInvalidAttributes` (two global regex replaces), `fixStructuralIssues`
(a detection-only regex test) and `addRequiredAttributes` (one global
regex replace).  Each global `String.replace(regex, fn)` is modelled by
`scanGo step`: at each position the deterministic matcher `step` either
yields the replacement text, the warning pushed by the callback, and the
rest of the input after the match (scanning resumes there, as JavaScript
does), or fails, in which case one character is copied and scanning
continues.  `step` is a faithful rendering of the corresponding regex:
lazy `[^>]*?` / `[^"]*?` groups stop at the first excluded character and
greedy `\d+` / `\s+` runs are maximal, terminated by the literal that
follows them in the pattern. -/

/-- A validation issue as pushed by the JavaScript code:
`{type, message}` plus an optional `fix` field. -/
structure Issue where
  type : String
  message : String
  fix : Option String
deriving DecidableEq

/-- Literal `padding="` — the fixed head of the shorthand-padding regex. -/
def PKEY : List Char := ['p', 'a', 'd', 'd', 'i', 'n', 'g', '=', '"']

/-- Literal `px`. -/
def PXL : List Char := ['p', 'x']

/-- Literal `px"` — the tail of the shorthand-padding regex. -/
def PXQ : List Char := ['p', 'x', '"']

/-- Literal `<mj-text`. -/
def TKEY : List Char := ['<', 'm', 'j', '-', 't', 'e', 'x', 't']

/-- Literal `border-radius="`. -/
def BKEY : List Char :=
  ['b', 'o', 'r', 'd', 'e', 'r', '-', 'r', 'a', 'd', 'i', 'u', 's', '=', '"']

/-- Literal `<mj-image`. -/
def IKEY : List Char := ['<', 'm', 'j', '-', 'i', 'm', 'a', 'g', 'e']

/-- Literal `<mj-column`. -/
def CKEY : List Char := ['<', 'm', 'j', '-', 'c', 'o', 'l', 'u', 'm', 'n']

/-- Literal `<mj-section`. -/
def SKEY : List Char := ['<', 'm', 'j', '-', 's', 'e', 'c', 't', 'i', 'o', 'n']

/-- Literal `alt=` — the lookahead body of the alt-injection regex. -/
def ALTEQ : List Char := ['a', 'l', 't', '=']

/-- Literal ` alt="Image"` — the text inserted into an `mj-image` tag
that lacks an alt attribute. -/
def INS : List Char :=
  [' ', 'a', 'l', 't', '=', '"', 'I', 'm', 'a', 'g', 'e', '"']

/-- JavaScript `\s` character class (the whitespace characters recognised
by the regexes in the validator), stated by codepoint: space, tab, LF,
VT, FF, CR, NBSP, U+1680, U+2000–U+200A, U+2028, U+2029, U+202F, U+205F,
U+3000 and U+FEFF. -/
def isJsWs (c : Char) : Bool :=
  let n := c.toNat
  n == 32 || n == 9 || n == 10 || n == 11 || n == 12 || n == 13 ||
  n == 160 || n == 5760 || (8192 ≤ n && n ≤ 8202) ||
  n == 8232 || n == 8233 || n == 8239 || n == 8287 || n == 12288 ||
  n == 65279

/-- Matcher for `/padding="(\d+px\s+\d+px)"/` at the head of `s`.  On
success it returns the captured group `(\d+px\s+\d+px)` and the input
that follows the match.  The greedy runs are maximal; each is stopped by
the literal character that follows it inside the match, so success never
depends on text beyond the match. -/
def padMatchAt (s : List Char) : Option (List Char × List Char) :=
  if pfx PKEY s then
    let s1 := s.drop 9
    let d1 := s1.takeWhile Char.isDigit
    let r1 := s1.dropWhile Char.isDigit
    if d1.isEmpty then none
    else if pfx PXL r1 then
      let s2 := r1.drop 2
      let w := s2.takeWhile isJsWs
      let r2 := s2.dropWhile isJsWs
      if w.isEmpty then none
      else
        let d2 := r2.takeWhile Char.isDigit
        let r3 := r2.dropWhile Char.isDigit
        if d2.isEmpty then none
        else if pfx PXQ r3 then
          some (d1 ++ PXL ++ w ++ d2 ++ PXL, r3.drop 3)
        else none
    else none
  else none

/-- `padding.split(' ')[0]` of the captured group: the run up to the
first space character. -/
def padTop (g : List Char) : List Char := g.takeWhile (fun c => c ≠ ' ')

/-- `padding.split(' ')[1]` of the captured group: `none` when the group
contains no space character at all (JavaScript `undefined`). -/
def padRightSeg (g : List Char) : Option (List Char) :=
  match g.dropWhile (fun c => c ≠ ' ') with
  | [] => none
  | _ :: rest => some (rest.takeWhile (fun c => c ≠ ' '))

/-- Template-literal interpolation of `split(' ')[1]`: JavaScript renders
`undefined` as the string `undefined`. -/
def padRight (g : List Char) : List Char :=
  match padRightSeg g with
  | none => ['u', 'n', 'd', 'e', 'f', 'i', 'n', 'e', 'd']
  | some r => r

/-- Literal `padding-top="`. -/
def PSA : List Char := "padding-top=\"".toList

/-- Literal `" padding-right="`. -/
def PSB : List Char := "\" padding-right=\"".toList

/-- Literal `" padding-bottom="`. -/
def PSC : List Char := "\" padding-bottom=\"".toList

/-- Literal `" padding-left="`. -/
def PSD : List Char := "\" padding-left=\"".toList

/-- The replacement text
`padding-top="${top}" padding-right="${right}" padding-bottom="${top}"
padding-left="${right}"` produced for a shorthand-padding match. -/
def padRep (g : List Char) : List Char :=
  PSA ++ padTop g ++ PSB ++ padRight g ++ PSC ++ padTop g ++
    PSD ++ padRight g ++ ['"']

/-- The warning pushed for a shorthand-padding match.  The source file's
`fix` template contains the mojibake byte sequence `â€ ™` (a UTF-8 arrow
re-decoded as Latin-1); it is reproduced verbatim with escapes. -/
def padIssue (g : List Char) : Issue :=
  { type := "padding-format"
    message := "Converted shorthand padding to individual attributes"
    fix := some ("padding=\"" ++ String.mk g ++ "\" \xE2†’ padding-top=\"" ++
      String.mk (padTop g) ++ "\" padding-right=\"" ++ String.mk (padRight g) ++
      "\" padding-bottom=\"" ++ String.mk (padTop g) ++ "\" padding-left=\"" ++
      String.mk (padRight g) ++ "\"") }

/-- The character class `[^>]` as a predicate. -/
def gtP (c : Char) : Bool := c ≠ '>'

/-- The character class `[^\x22]` (not a double quote) as a predicate. -/
def qtP (c : Char) : Bool := c ≠ '"'

/-- Scanner for the lazy groups of
`/<mj-text([^>]*?)\s+border-radius="([^"]*?)"([^>]*?)>/` after the literal
`<mj-text` has been consumed.  `acc` holds (reversed) the characters
absorbed so far by the lazy `([^>]*?)` group.  At the first position
where a nonempty `\s+` run is immediately followed by `border-radius="`
the remaining groups are forced: `([^"]*?)"` must stop at the first `"`
and `([^>]*?)>` at the first `>`.  When either terminator is missing the
whole regex fails: any later candidate position would look for the same
terminators in an even shorter suffix, so returning `none` is faithful.
A `>` ends the search since `[^>]*?` cannot absorb it. -/
def borderScan : List Char → List Char → Option (List Char × List Char × List Char × List Char)
  | [], _ => none
  | c :: cs, acc =>
    if c = '>' then none
    else if isJsWs c then
      let afterWs := (c :: cs).dropWhile isJsWs
      if pfx BKEY afterWs then
        let v := afterWs.drop 15
        let rad := v.takeWhile qtP
        match v.dropWhile qtP with
        | [] => none
        | _ :: v3 =>
          let aft := v3.takeWhile gtP
          match v3.dropWhile gtP with
          | [] => none
          | _ :: rest => some (acc.reverse, rad, aft, rest)
      else borderScan cs (c :: acc)
    else borderScan cs (c :: acc)

/-- Matcher for `/<mj-text([^>]*?)\s+border-radius="([^"]*?)"([^>]*?)>/`
at the head of `s`, returning `(before, radius, after, rest)`. -/
def borderMatchAt (s : List Char) : Option (List Char × List Char × List Char × List Char) :=
  if pfx TKEY s then borderScan (s.drop 8) [] else none

/-- Replacement for a border-radius match: `<mj-text${before}${after}>`. -/
def borderRep (before after : List Char) : List Char :=
  TKEY ++ before ++ after ++ ['>']

/-- The warning pushed for a border-radius match. -/
def borderIssue (radius : List Char) : Issue :=
  { type := "invalid-attribute"
    message := "border-radius is not valid on mj-text. Use CSS classes or mj-wrapper instead."
    fix := some ("Removed border-radius=\"" ++ String.mk radius ++ "\" from mj-text") }

/-- Matcher for `/<mj-image(?![^>]*alt=)([^>]*?)>/` at the head of `s`,
returning the lazily-matched attribute group and the rest after `>`.
The negative lookahead `(?![^>]*alt=)` succeeds exactly when `alt=` does
not occur in the run of non-`>` characters following `<mj-image` (the
characters of `alt=` are themselves not `>`, so an occurrence inside the
lookahead region is an occurrence inside that run). -/
def altMatchAt (s : List Char) : Option (List Char × List Char) :=
  if pfx IKEY s then
    let t := s.drop 9
    let run := t.takeWhile gtP
    match t.dropWhile gtP with
    | [] => none
    | _ :: rest => if containsSub ALTEQ run then none else some (run, rest)
  else none

/-- Replacement for an alt-injection match:
`<mj-image${attributes} alt="Image">`. -/
def altRep (run : List Char) : List Char :=
  IKEY ++ run ++ INS ++ ['>']

/-- The warning pushed for an alt-injection match. -/
def altIssue : Issue :=
  { type := "missing-attribute"
    message := "Added missing alt attribute to mj-image for accessibility"
    fix := none }

/-- Generic model of JavaScript `String.replace(regex, fn)` with a global
regex: scan left to right, at a match emit the replacement, record the
issue pushed by the callback and resume after the matched text; at a
non-match copy one character.  The fuel argument is only a termination
device — every step consumes at least one character, so any fuel of at
least `s.length` computes the full scan. -/
def scanGo (step : List Char → Option (List Char × Issue × List Char)) :
    Nat → List Char → List Char × List Issue
  | _, [] => ([], [])
  | 0, s => (s, [])
  | n + 1, c :: cs =>
    match step (c :: cs) with
    | some (rep, iss, rest) =>
      let p := scanGo step n rest
      (rep ++ p.1, iss :: p.2)
    | none =>
      let p := scanGo step n cs
      (c :: p.1, p.2)

/-- Step function of the border-radius replace. -/
def borderStep (s : List Char) : Option (List Char × Issue × List Char) :=
  (borderMatchAt s).map fun x => (borderRep x.1 x.2.2.1, borderIssue x.2.1, x.2.2.2)

/-- Step function of the shorthand-padding replace. -/
def padStep (s : List Char) : Option (List Char × Issue × List Char) :=
  (padMatchAt s).map fun x => (padRep x.1, padIssue x.1, x.2)

/-- Step function of the alt-injection replace. -/
def altStep (s : List Char) : Option (List Char × Issue × List Char) :=
  (altMatchAt s).map fun x => (altRep x.1, altIssue, x.2)

/-- `fixInvalidAttributes`: the border-radius replace followed by the
shorthand-padding replace, pushing warnings in that order. -/
def fixInvalidAttributes (s : List Char) : List Char × List Issue :=
  let b := scanGo borderStep s.length s
  let p := scanGo padStep b.1.length b.1
  (p.1, b.2 ++ p.2)

/-- Existence test for `/<mj-column[^>]*>[\s\S]*?<mj-section/`: some
occurrence of `<mj-column` is followed (after the first `>` that ends
its `[^>]*` run) by a later occurrence of `<mj-section`. -/
def hasSectionInColumn : List Char → Bool
  | [] => false
  | c :: cs =>
    (pfx CKEY (c :: cs) &&
      (match ((c :: cs).drop 10).dropWhile gtP with
       | [] => false
       | _ :: rest => containsSub SKEY rest)) || hasSectionInColumn cs

/-- The error pushed when the section-inside-column pattern is found. -/
def structuralIssue : Issue :=
  { type := "structural-error"
    message := "mj-section cannot be nested inside mj-column"
    fix := none }

/-- `fixStructuralIssues`: detection only — the text is returned
unchanged and a single error is recorded when the pattern occurs. -/
def fixStructuralIssues (s : List Char) : List Char × List Issue :=
  (s, if hasSectionInColumn s then [structuralIssue] else [])

/-- `addRequiredAttributes`: the alt-injection replace. -/
def addRequiredAttributes (s : List Char) : List Char × List Issue :=
  scanGo altStep s.length s

/-- The result object of `validateAndCorrectMJML`. -/
structure VResult where
  isValid : Bool
  correctedMjml : List Char
  errors : List Issue
  warnings : List Issue
deriving DecidableEq

/-- `validateAndCorrectMJML`: run the three passes in order, collect
errors and warnings, and report `isValid` iff no errors were pushed. -/
def validateAndCorrectMJML (s : List Char) : VResult :=
  let fia := fixInvalidAttributes s
  let fsi := fixStructuralIssues fia.1
  let ara := addRequiredAttributes fsi.1
  { isValid := fsi.2.isEmpty
    correctedMjml := ara.1
    errors := fsi.2
    warnings := fia.2 ++ ara.2 }

/-- `noOccScan m s` is true when the matcher `m` fails at every suffix of
`s` — i.e. the corresponding regex has no occurrence anywhere in `s`. -/
def noOccScan {α : Type} (m : List Char → Option α) : List Char → Bool
  | [] => (m []).isNone
  | c :: cs => (m (c :: cs)).isNone && noOccScan m cs

/-! ## Supporting lemmas: spans and the generic scanner -/

theorem takeWhile_split (p : Char → Bool) (a : List Char) (b : Char)
    (bs : List Char) (ha : ∀ c ∈ a, p c = true) (hb : p b = false) :
    (a ++ b :: bs).takeWhile p = a ∧ (a ++ b :: bs).dropWhile p = b :: bs := by
  induction a with
  | nil => simp [List.takeWhile, List.dropWhile, hb]
  | cons x xs ih =>
    have hx : p x = true := ha x (by simp)
    have := ih (fun c hc => ha c (by simp [hc]))
    simp [List.takeWhile, List.dropWhile, hx, this]

theorem dropWhile_length_le (p : Char → Bool) (l : List Char) :
    (l.dropWhile p).length ≤ l.length := by
  induction l with
  | nil => simp [List.dropWhile]
  | cons a l ih =>
    simp only [List.dropWhile]
    split
    · exact le_trans ih (by simp)
    · simp

theorem takeWhile_all (p : Char → Bool) (l : List Char) :
    ∀ c ∈ l.takeWhile p, p c = true := fun _ hc => List.mem_takeWhile_imp hc

theorem isDigit_toNat (c : Char) (h : c.isDigit = true) :
    48 ≤ c.toNat ∧ c.toNat ≤ 57 := by
  simp [Char.isDigit] at h
  exact ⟨h.1, h.2⟩

theorem digit_not_ws (c : Char) (h : c.isDigit = true) : isJsWs c = false := by
  have hv := isDigit_toNat c h
  simp only [isJsWs, Bool.or_eq_false_iff, beq_eq_false_iff_ne, ne_eq,
    Bool.and_eq_false_iff, decide_eq_false_iff_not, not_le]
  omega

theorem digit_of_toNat (c : Char) (h1 : 48 ≤ c.toNat) (h2 : c.toNat ≤ 57) :
    c.isDigit = true := by
  simp [Char.isDigit]
  exact ⟨h1, h2⟩

/-! ### Generic scanner lemmas -/

theorem scanGo_nil (step : List Char → Option (List Char × Issue × List Char))
    (n : Nat) : scanGo step n [] = ([], []) := by
  cases n <;> rfl

theorem scanGo_silent (step : List Char → Option (List Char × Issue × List Char)) :
    ∀ (n : Nat) (s : List Char),
      (scanGo step n s).2 = [] → (scanGo step n s).1 = s := by
  intro n
  induction n with
  | zero => intro s _; cases s <;> rfl
  | succ n ih =>
    intro s h
    cases s with
    | nil => rfl
    | cons c cs =>
      rw [scanGo] at h ⊢
      cases hstep : step (c :: cs) with
      | some x =>
        rcases x with ⟨rep, iss, rest⟩
        simp [hstep] at h
      | none =>
        simp only [hstep] at h ⊢
        simp only [List.cons.injEq, true_and]
        exact ih cs h

theorem scanGo_noOcc (step : List Char → Option (List Char × Issue × List Char)) :
    ∀ (n : Nat) (s : List Char),
      (∀ i, step (s.drop i) = none) → scanGo step n s = (s, []) := by
  intro n
  induction n with
  | zero => intro s _; cases s <;> rfl
  | succ n ih =>
    intro s h
    cases s with
    | nil => rfl
    | cons c cs =>
      have h0 := h 0
      simp only [List.drop_zero] at h0
      rw [scanGo, h0]
      have := ih cs (fun i => by simpa using h (i + 1))
      simp [this]

theorem scanGo_fuelIrrel (step : List Char → Option (List Char × Issue × List Char))
    (hdec : ∀ s rep iss rest, step s = some (rep, iss, rest) →
      rest.length < s.length) :
    ∀ (n m : Nat) (s : List Char), s.length ≤ n → s.length ≤ m →
      scanGo step n s = scanGo step m s := by
  intro n
  induction n with
  | zero =>
    intro m s hn _
    have : s = [] := List.eq_nil_of_length_eq_zero (Nat.le_zero.mp hn)
    subst this
    rw [scanGo_nil, scanGo_nil]
  | succ n ih =>
    intro m s hn hm
    cases s with
    | nil => rw [scanGo_nil, scanGo_nil]
    | cons c cs =>
      cases m with
      | zero => simp at hm
      | succ m =>
        rw [scanGo, scanGo]
        cases hstep : step (c :: cs) with
        | some x =>
          rcases x with ⟨rep, iss, rest⟩
          have hlt := hdec _ _ _ _ hstep
          simp only [List.length_cons] at hn hm hlt
          dsimp only
          rw [ih m rest (by omega) (by omega)]
        | none =>
          simp only [List.length_cons] at hn hm
          dsimp only
          rw [ih m cs (by omega) (by omega)]

theorem scanGo_walk (step : List Char → Option (List Char × Issue × List Char))
    (hdec : ∀ s rep iss rest, step s = some (rep, iss, rest) →
      rest.length < s.length) :
    ∀ (seg : List Char) (n : Nat) (rest : List Char),
      (seg ++ rest).length ≤ n →
      (∀ i, i < seg.length → step ((seg ++ rest).drop i) = none) →
      scanGo step n (seg ++ rest) =
        (seg ++ (scanGo step rest.length rest).1,
          (scanGo step rest.length rest).2) := by
  intro seg
  induction seg with
  | nil =>
    intro n rest hn _
    simp only [List.nil_append, List.length_nil] at *
    rw [scanGo_fuelIrrel step hdec n rest.length rest hn (le_refl _)]
  | cons c seg ih =>
    intro n rest hn hocc
    cases n with
    | zero => simp at hn
    | succ n =>
      have h0 := hocc 0 (by simp)
      simp only [List.drop_zero, List.cons_append] at h0
      rw [List.cons_append, scanGo, h0]
      have := ih n rest (by simpa using Nat.le_of_succ_le_succ hn)
        (fun i hi => by simpa using hocc (i + 1) (by simpa using Nat.succ_lt_succ hi))
      simp [this]

/-! ### Matcher facts -/

theorem padMatchAt_nil : padMatchAt [] = none := by decide

theorem borderMatchAt_nil : borderMatchAt [] = none := by decide

theorem altMatchAt_nil : altMatchAt [] = none := by decide

/-- Soundness of the shorthand-padding matcher: a match decomposes the
input as `padding="` ++ group ++ `"` ++ rest, where the group is
digits ++ `px` ++ whitespace ++ digits ++ `px` with each run nonempty. -/
theorem padMatchAt_some (s g rest : List Char)
    (h : padMatchAt s = some (g, rest)) :
    ∃ d1 w d2 : List Char,
      d1 ≠ [] ∧ (∀ c ∈ d1, c.isDigit = true) ∧
      w ≠ [] ∧ (∀ c ∈ w, isJsWs c = true) ∧
      d2 ≠ [] ∧ (∀ c ∈ d2, c.isDigit = true) ∧
      g = d1 ++ PXL ++ w ++ d2 ++ PXL ∧
      s = PKEY ++ g ++ ['"'] ++ rest := by
  simp only [padMatchAt] at h
  by_cases hp : pfx PKEY s = true
  swap
  · simp [hp] at h
  simp only [hp, if_true] at h
  set s1 := s.drop 9 with hs1
  set d1 := s1.takeWhile Char.isDigit with hd1
  set r1 := s1.dropWhile Char.isDigit with hr1
  by_cases he1 : d1.isEmpty = true
  · simp [he1] at h
  simp only [Bool.not_eq_true] at he1
  simp only [he1, Bool.false_eq_true, if_false] at h
  by_cases hx1 : pfx PXL r1 = true
  swap
  · simp [hx1] at h
  simp only [hx1, if_true] at h
  set s2 := r1.drop 2 with hs2
  set w := s2.takeWhile isJsWs with hw
  set r2 := s2.dropWhile isJsWs with hr2
  by_cases he2 : w.isEmpty = true
  · simp [he2] at h
  simp only [Bool.not_eq_true] at he2
  simp only [he2, Bool.false_eq_true, if_false] at h
  set d2 := r2.takeWhile Char.isDigit with hd2
  set r3 := r2.dropWhile Char.isDigit with hr3
  by_cases he3 : d2.isEmpty = true
  · simp [he3] at h
  simp only [Bool.not_eq_true] at he3
  simp only [he3, Bool.false_eq_true, if_false] at h
  by_cases hx3 : pfx PXQ r3 = true
  swap
  · simp [hx3] at h
  simp only [hx3, if_true, Option.some.injEq, Prod.mk.injEq] at h
  obtain ⟨hg, hrest⟩ := h
  refine ⟨d1, w, d2, ?_, ?_, ?_, ?_, ?_, ?_, hg.symm, ?_⟩
  · simpa [List.isEmpty_iff] using he1
  · intro c hc; exact List.mem_takeWhile_imp (hd1 ▸ hc)
  · simpa [List.isEmpty_iff] using he2
  · intro c hc; exact List.mem_takeWhile_imp (hw ▸ hc)
  · simpa [List.isEmpty_iff] using he3
  · intro c hc; exact List.mem_takeWhile_imp (hd2 ▸ hc)
  · -- reassemble s from the spans
    have e1 : d1 ++ r1 = s1 := by
      rw [hd1, hr1]; exact List.takeWhile_append_dropWhile _ _
    have e2 : r1 = PXL ++ s2 := by
      have h := pfx_take PXL r1 hx1
      have hl : PXL.length = 2 := by decide
      rw [hl] at h
      conv_lhs => rw [← List.take_append_drop 2 r1]
      rw [h, hs2]
    have e3 : w ++ r2 = s2 := by
      rw [hw, hr2]; exact List.takeWhile_append_dropWhile _ _
    have e4 : d2 ++ r3 = r2 := by
      rw [hd2, hr3]; exact List.takeWhile_append_dropWhile _ _
    have e5 : r3 = PXQ ++ rest := by
      have h := pfx_take PXQ r3 hx3
      have hl : PXQ.length = 3 := by decide
      rw [hl] at h
      conv_lhs => rw [← List.take_append_drop 3 r3]
      rw [h, hrest]
    have e0 : s = PKEY ++ s1 := by
      have h := pfx_take PKEY s hp
      have hl : PKEY.length = 9 := by decide
      rw [hl] at h
      conv_lhs => rw [← List.take_append_drop 9 s]
      rw [h, hs1]
    have hpxq : PXQ = PXL ++ ['"'] := by decide
    rw [e0, ← e1, e2, ← e3, ← e4, e5, hpxq, ← hg]
    simp

/-- Reconstruction: the shorthand-padding matcher succeeds on any text of
the matched shape, consuming exactly the match (its greedy runs are all
stopped by the literal characters inside the match, so the text after the
closing quote is returned untouched). -/
theorem padMatchAt_build (d1 w d2 rest : List Char)
    (h1 : d1 ≠ []) (h2 : ∀ c ∈ d1, c.isDigit = true)
    (h3 : w ≠ []) (h4 : ∀ c ∈ w, isJsWs c = true)
    (h5 : d2 ≠ []) (h6 : ∀ c ∈ d2, c.isDigit = true) :
    padMatchAt (PKEY ++ (d1 ++ PXL ++ w ++ d2 ++ PXL) ++ ['"'] ++ rest) =
      some (d1 ++ PXL ++ w ++ d2 ++ PXL, rest) := by
  obtain ⟨e2, d2', rfl⟩ : ∃ e t, d2 = e :: t := by
    cases d2 with
    | nil => exact absurd rfl h5
    | cons e t => exact ⟨e, t, rfl⟩
  have hp : pfx PKEY (PKEY ++ (d1 ++ PXL ++ w ++ (e2 :: d2') ++ PXL) ++ ['"'] ++ rest) = true := by
    rw [List.append_assoc, List.append_assoc]
    exact pfx_append _ _
  have hdrop : (PKEY ++ (d1 ++ PXL ++ w ++ (e2 :: d2') ++ PXL) ++ ['"'] ++ rest).drop 9 =
      (d1 ++ PXL ++ w ++ (e2 :: d2') ++ PXL) ++ ['"'] ++ rest := by
    rw [List.append_assoc, List.append_assoc]
    have : (9 : Nat) = PKEY.length := by decide
    rw [this, List.drop_left]
    simp
  have shape1 : (d1 ++ PXL ++ w ++ (e2 :: d2') ++ PXL) ++ ['"'] ++ rest =
      d1 ++ ('p' :: 'x' :: (w ++ (e2 :: d2') ++ PXL ++ ['"'] ++ rest)) := by
    simp [PXL]
  have sp1 := takeWhile_split Char.isDigit d1 'p'
    ('x' :: (w ++ (e2 :: d2') ++ PXL ++ ['"'] ++ rest)) h2 (by decide)
  have hd2e : Char.isDigit e2 = true := h6 e2 (by simp)
  have sp2 := takeWhile_split isJsWs w e2
    (d2' ++ PXL ++ ['"'] ++ rest) h4 (digit_not_ws e2 hd2e)
  have sp3 := takeWhile_split Char.isDigit (e2 :: d2') 'p'
    ('x' :: '"' :: rest) h6 (by decide)
  simp only [padMatchAt, hp, if_true, hdrop, shape1, sp1.1, sp1.2]
  have hne1 : d1.isEmpty = false := by simp [List.isEmpty_iff, h1]
  have hne2 : w.isEmpty = false := by simp [List.isEmpty_iff, h3]
  rw [hne1]
  simp only [Bool.false_eq_true, if_false]
  have hpfx2 : pfx PXL ('p' :: 'x' :: (w ++ (e2 :: d2') ++ PXL ++ ['"'] ++ rest)) = true := by
    have : 'p' :: 'x' :: (w ++ (e2 :: d2') ++ PXL ++ ['"'] ++ rest) =
        PXL ++ (w ++ (e2 :: d2') ++ PXL ++ ['"'] ++ rest) := by simp [PXL]
    rw [this]; exact pfx_append _ _
  rw [hpfx2]
  simp only [if_true, List.drop_succ_cons, List.drop_zero]
  have shape2 : w ++ (e2 :: d2') ++ PXL ++ ['"'] ++ rest =
      w ++ (e2 :: (d2' ++ PXL ++ ['"'] ++ rest)) := by simp
  rw [shape2, sp2.1, sp2.2, hne2]
  simp only [Bool.false_eq_true, if_false]
  have shape3 : e2 :: (d2' ++ PXL ++ ['"'] ++ rest) =
      (e2 :: d2') ++ ('p' :: 'x' :: '"' :: rest) := by simp [PXL]
  rw [shape3, sp3.1, sp3.2]
  have hne3 : (e2 :: d2').isEmpty = false := by simp
  rw [hne3]
  simp only [Bool.false_eq_true, if_false]
  have hpfx3 : pfx PXQ ('p' :: 'x' :: '"' :: rest) = true := by
    have : 'p' :: 'x' :: '"' :: rest = PXQ ++ rest := by simp [PXQ]
    rw [this]; exact pfx_append _ _
  rw [hpfx3]
  simp [PXL]

theorem padMatchAt_length (s g rest : List Char)
    (h : padMatchAt s = some (g, rest)) : rest.length < s.length := by
  obtain ⟨d1, w, d2, _, _, _, _, _, _, _, hs⟩ := padMatchAt_some s g rest h
  subst hs
  simp [PKEY]
  omega

theorem borderScan_length :
    ∀ (u acc b r a rest : List Char),
      borderScan u acc = some (b, r, a, rest) → rest.length < u.length := by
  intro u
  induction u with
  | nil => intro acc b r a rest h; simp [borderScan] at h
  | cons c cs ih =>
    intro acc b r a rest h
    rw [borderScan] at h
    dsimp only at h
    split at h
    · simp at h
    split at h
    swap
    · exact lt_trans (ih _ _ _ _ _ h) (by simp)
    split at h
    swap
    · exact lt_trans (ih _ _ _ _ _ h) (by simp)
    rename_i hws hbk
    split at h
    · simp at h
    rename_i q v3 hv2
    split at h
    · simp at h
    rename_i q2 rest2 hv4
    simp only [Option.some.injEq, Prod.mk.injEq] at h
    obtain ⟨-, -, -, hrest⟩ := h
    subst hrest
    have hA : ((c :: cs).dropWhile isJsWs).length ≤ cs.length + 1 := by
      simpa using dropWhile_length_le isJsWs (c :: cs)
    have hB : 15 ≤ ((c :: cs).dropWhile isJsWs).length := by
      have := pfx_length_le BKEY _ hbk
      simpa using this
    have h2 : v3.length + 1 ≤ (((c :: cs).dropWhile isJsWs).drop 15).length := by
      have := dropWhile_length_le qtP
        (((c :: cs).dropWhile isJsWs).drop 15)
      rw [hv2] at this
      simpa using this
    have h4 : rest2.length + 1 ≤ v3.length := by
      have := dropWhile_length_le gtP v3
      rw [hv4] at this
      simpa using this
    simp only [List.length_drop] at h2
    simp only [List.length_cons]
    omega

theorem borderMatchAt_length (s : List Char) (b r a rest : List Char)
    (h : borderMatchAt s = some (b, r, a, rest)) : rest.length < s.length := by
  rw [borderMatchAt] at h
  by_cases hp : pfx TKEY s = true
  swap
  · simp [hp] at h
  simp only [hp, if_true] at h
  have := borderScan_length _ _ _ _ _ _ h
  have h8 : (s.drop 8).length = s.length - 8 := by simp
  have : 8 ≤ s.length := by
    have := pfx_length_le TKEY s hp
    simpa using this
  omega

theorem altMatchAt_length (s run rest : List Char)
    (h : altMatchAt s = some (run, rest)) : rest.length < s.length := by
  rw [altMatchAt] at h
  dsimp only at h
  split at h
  swap
  · simp at h
  rename_i hp
  split at h
  · simp at h
  rename_i q rest2 ht
  split at h
  · simp at h
  simp only [Option.some.injEq, Prod.mk.injEq] at h
  obtain ⟨-, hrest⟩ := h
  subst hrest
  have h1 : rest2.length + 1 ≤ (s.drop 9).length := by
    have := dropWhile_length_le gtP (s.drop 9)
    rw [ht] at this
    simpa using this
  have h2 : 9 ≤ s.length := by
    have := pfx_length_le IKEY s hp
    simpa using this
  simp only [List.length_drop] at h1
  omega

theorem borderStep_dec (s rep : List Char) (iss : Issue) (rest : List Char)
    (h : borderStep s = some (rep, iss, rest)) : rest.length < s.length := by
  rw [borderStep] at h
  cases hm : borderMatchAt s with
  | none => simp [hm] at h
  | some x =>
    obtain ⟨b, r, a, rst⟩ := x
    simp only [hm, Option.map_some] at h
    cases h
    exact borderMatchAt_length s b r a rst hm

theorem padStep_dec (s rep : List Char) (iss : Issue) (rest : List Char)
    (h : padStep s = some (rep, iss, rest)) : rest.length < s.length := by
  rw [padStep] at h
  cases hm : padMatchAt s with
  | none => simp [hm] at h
  | some x =>
    obtain ⟨g, rst⟩ := x
    simp only [hm, Option.map_some] at h
    cases h
    exact padMatchAt_length s g rst hm

theorem altStep_dec (s rep : List Char) (iss : Issue) (rest : List Char)
    (h : altStep s = some (rep, iss, rest)) : rest.length < s.length := by
  rw [altStep] at h
  cases hm : altMatchAt s with
  | none => simp [hm] at h
  | some x =>
    obtain ⟨run, rst⟩ := x
    simp only [hm, Option.map_some] at h
    cases h
    exact altMatchAt_length s run rst hm

theorem noOccScan_iff {α : Type} (m : List Char → Option α)
    (hnil : m [] = none) (s : List Char) :
    noOccScan m s = true ↔ ∀ i, m (s.drop i) = none := by
  induction s with
  | nil => simp [noOccScan, hnil]
  | cons c cs ih =>
    simp only [noOccScan, Bool.and_eq_true, Option.isNone_iff_eq_none, ih]
    constructor
    · rintro ⟨h0, h⟩ i
      cases i with
      | zero => simpa using h0
      | succ i => simpa using h i
    · intro h
      exact ⟨by simpa using h 0, fun i => by simpa using h (i + 1)⟩

/-- With no border-radius occurrence anywhere, the border pass is the
identity and pushes no warning. -/
theorem borderPass_noOcc (s : List Char) (n : Nat)
    (h : noOccScan borderMatchAt s = true) :
    scanGo borderStep n s = (s, []) := by
  refine scanGo_noOcc borderStep n s (fun i => ?_)
  have := (noOccScan_iff borderMatchAt borderMatchAt_nil s).mp h i
  simp [borderStep, this]

/-- With no shorthand-padding occurrence anywhere, the padding pass is
the identity and pushes no warning. -/
theorem padPass_noOcc (s : List Char) (n : Nat)
    (h : noOccScan padMatchAt s = true) :
    scanGo padStep n s = (s, []) := by
  refine scanGo_noOcc padStep n s (fun i => ?_)
  have := (noOccScan_iff padMatchAt padMatchAt_nil s).mp h i
  simp [padStep, this]

/-- With no alt-injection occurrence anywhere, the alt pass is the
identity and pushes no warning. -/
theorem altPass_noOcc (s : List Char) (n : Nat)
    (h : noOccScan altMatchAt s = true) :
    scanGo altStep n s = (s, []) := by
  refine scanGo_noOcc altStep n s (fun i => ?_)
  have := (noOccScan_iff altMatchAt altMatchAt_nil s).mp h i
  simp [altStep, this]

/-! ### Prefix/occurrence decomposition lemmas

These support the `no match survives in the output` theorems: any regex
match found in a scanner's output must be located relative to the
replacement texts the scanner emitted, and each location is refuted by a
character-level argument. -/

theorem pfx_trans (a b s : List Char) (h1 : pfx a b = true)
    (h2 : pfx b s = true) : pfx a s = true := by
  rcases (pfx_iff a b).mp h1 with ⟨t, rfl⟩
  rcases (pfx_iff (a ++ t) s).mp h2 with ⟨u, rfl⟩
  rw [List.append_assoc]
  exact pfx_append a (t ++ u)

theorem pfx_append_cases (w u v : List Char) (h : pfx w (u ++ v) = true) :
    (∃ w2, w = u ++ w2 ∧ pfx w2 v = true) ∨ pfx w u = true := by
  induction u generalizing w with
  | nil => exact Or.inl ⟨w, by simpa using h⟩
  | cons c u ih =>
    cases w with
    | nil => exact Or.inr rfl
    | cons x w =>
      simp only [List.cons_append, pfx, Bool.and_eq_true, beq_iff_eq] at h
      obtain ⟨rfl, h⟩ := h
      rcases ih w h with ⟨w2, rfl, hw2⟩ | hw
      · exact Or.inl ⟨w2, rfl, hw2⟩
      · exact Or.inr (by simp [pfx, hw])

theorem pfx_append_extend (w u v : List Char) (h : pfx w (u ++ v) = true)
    (hlen : u.length < w.length) :
    ∃ w2, w = u ++ w2 ∧ pfx w2 v = true := by
  rcases pfx_append_cases w u v h with hcase | hcase
  · exact hcase
  · exact absurd (pfx_length_le _ _ hcase) (by omega)

theorem pfx_append_within (w u v : List Char) (h : pfx w (u ++ v) = true)
    (hlen : w.length ≤ u.length) : pfx w u = true := by
  rcases pfx_append_cases w u v h with ⟨w2, rfl, -⟩ | hcase
  · simp only [List.length_append] at hlen
    have : w2 = [] := List.eq_nil_of_length_eq_zero (by omega)
    subst this
    simpa using pfx_refl u
  · exact hcase

theorem containsSub_append_cases (w u v : List Char)
    (h : containsSub w (u ++ v) = true) :
    containsSub w u = true ∨ containsSub w v = true ∨
      ∃ u1 u2 w2, u = u1 ++ u2 ∧ w = u2 ++ w2 ∧ u2 ≠ [] ∧ pfx w2 v = true := by
  induction u with
  | nil => exact Or.inr (Or.inl (by simpa using h))
  | cons c u ih =>
    rw [List.cons_append, containsSub, Bool.or_eq_true] at h
    rcases h with h | h
    · rcases pfx_append_cases w (c :: u) v h with ⟨w2, rfl, hw2⟩ | hw
      · exact Or.inr (Or.inr ⟨[], c :: u, w2, by simp, rfl, by simp, hw2⟩)
      · exact Or.inl (containsSub_of_pfx _ _ hw)
    · rcases ih h with h | h | ⟨u1, u2, w2, rfl, hw, hu2, hw2⟩
      · exact Or.inl (containsSub_cons _ _ _ h)
      · exact Or.inr (Or.inl h)
      · exact Or.inr (Or.inr ⟨c :: u1, u2, w2, by simp, hw, hu2, hw2⟩)

theorem containsSub_mem (w s : List Char) (h : containsSub w s = true) :
    ∀ c ∈ w, c ∈ s := by
  rcases (containsSub_iff w s).mp h with ⟨a, b, rfl⟩
  intro c hc
  simp [hc]

theorem containsSub_two (x y : Char) (u v : List Char)
    (h : containsSub [x, y] (u ++ v) = true) :
    containsSub [x, y] u = true ∨ containsSub [x, y] v = true ∨
      (u.getLast? = some x ∧ pfx [y] v = true) := by
  rcases containsSub_append_cases [x, y] u v h with h | h | ⟨u1, u2, w2, rfl, hw, hu2, hw2⟩
  · exact Or.inl h
  · exact Or.inr (Or.inl h)
  · cases u2 with
    | nil => exact absurd rfl hu2
    | cons a u2 =>
      cases u2 with
      | nil =>
        simp only [List.cons_append, List.nil_append, List.cons.injEq] at hw
        obtain ⟨rfl, rfl⟩ := hw
        refine Or.inr (Or.inr ⟨?_, hw2⟩)
        rw [List.getLast?_append]
        simp
      | cons b u2 =>
        cases u2 with
        | nil =>
          simp only [List.cons_append, List.nil_append, List.cons.injEq] at hw
          obtain ⟨rfl, rfl, hw⟩ := hw
          have : w2 = [] := by
            cases w2 with
            | nil => rfl
            | cons z zs => simp at hw
          subst this
          left
          refine (containsSub_iff _ _).mpr ⟨u1, [], by simp⟩
        | cons d u2 => simp at hw

theorem containsSub_drop (w s : List Char) (i : Nat)
    (h : containsSub w (s.drop i) = true) : containsSub w s = true := by
  rw [← List.take_append_drop i s]
  exact containsSub_append_right _ _ _ h

theorem containsSub_second_mem (x y : Char) (u : List Char)
    (h : containsSub [x, y] u = true) : y ∈ u.drop 1 := by
  rcases (containsSub_iff _ u).mp h with ⟨a, b, rfl⟩
  cases a with
  | nil => simp
  | cons c a => simp

theorem getLast?_drop_of_ne_nil (u : List Char) (i : Nat)
    (h : u.drop i ≠ []) : (u.drop i).getLast? = u.getLast? := by
  conv_rhs => rw [← List.take_append_drop i u]
  rw [List.getLast?_append]
  cases hl : (u.drop i).getLast? with
  | none => exact absurd (List.getLast?_eq_none_iff.mp hl) h
  | some q => simp

theorem getLast?_append_right (u v : List Char) (q : Char)
    (h : v.getLast? = some q) : (u ++ v).getLast? = some q := by
  rw [List.getLast?_append, h]
  simp

theorem getLast?_mem_self (l : List Char) (a : Char)
    (h : l.getLast? = some a) : a ∈ l := by
  induction l with
  | nil => simp at h
  | cons c cs ih =>
    cases cs with
    | nil => simp at h; simp [h]
    | cons d ds =>
      rw [List.getLast?_cons_cons] at h
      simpa using Or.inr (ih h)

/-! ### Character classes of a shorthand-padding match

The captured group of `/padding="(\d+px\s+\d+px)"/` consists of digits,
the letters `p`/`x`, and `\s` whitespace; these facts exclude all the
characters the later junction arguments rely on. -/

/-- Characters that can occur in the captured shorthand-padding group. -/
def padBodyChar (c : Char) : Bool :=
  c.isDigit || c == 'p' || c == 'x' || isJsWs c

/-- The rendering of JavaScript `undefined`. -/
def UNDEF : List Char := ['u', 'n', 'd', 'e', 'f', 'i', 'n', 'e', 'd']

/-- Characters that can occur in either `split(' ')` segment as rendered
into the replacement text. -/
def padSegChar (c : Char) : Bool := padBodyChar c || UNDEF.contains c

theorem padBodyChar_ne (c x : Char) (h : padBodyChar c = true)
    (hx : padBodyChar x = false) : c ≠ x := by
  intro heq
  subst heq
  rw [h] at hx
  simp at hx

theorem padSegChar_ne (c x : Char) (h : padSegChar c = true)
    (hx : padSegChar x = false) : c ≠ x := by
  intro heq
  subst heq
  rw [h] at hx
  simp at hx

theorem padBodyChar_seg (c : Char) (h : padBodyChar c = true) :
    padSegChar c = true := by simp [padSegChar, h]

/-- All characters of a well-formed captured group are body characters. -/
def padGroupOk (g : List Char) : Prop := ∀ c ∈ g, padBodyChar c = true

theorem padMatchAt_groupOk (s g rest : List Char)
    (h : padMatchAt s = some (g, rest)) : padGroupOk g := by
  obtain ⟨d1, w, d2, -, h2, -, h4, -, h6, hg, -⟩ := padMatchAt_some s g rest h
  subst hg
  intro c hc
  simp only [List.append_assoc, List.mem_append] at hc
  rcases hc with hc | hc | hc | hc | hc
  · simp [padBodyChar, h2 c hc]
  · have : c = 'p' ∨ c = 'x' := by simpa [PXL] using hc
    rcases this with rfl | rfl <;> decide
  · simp [padBodyChar, h4 c hc]
  · simp [padBodyChar, h6 c hc]
  · have : c = 'p' ∨ c = 'x' := by simpa [PXL] using hc
    rcases this with rfl | rfl <;> decide

theorem padTop_chars (g : List Char) (hg : padGroupOk g) :
    ∀ c ∈ padTop g, padBodyChar c = true :=
  fun c hc => hg c (List.takeWhile_subset _ hc)

theorem padRight_chars (g : List Char) (hg : padGroupOk g) :
    ∀ c ∈ padRight g, padSegChar c = true := by
  intro c hc
  rw [padRight] at hc
  cases hseg : padRightSeg g with
  | none =>
    rw [hseg] at hc
    simp only [padSegChar, Bool.or_eq_true]
    right
    simpa [UNDEF, List.contains_eq_any_beq, List.any_beq] using hc
  | some r =>
    rw [hseg] at hc
    rw [padRightSeg] at hseg
    cases hdw : g.dropWhile (fun c => c ≠ ' ') with
    | nil => rw [hdw] at hseg; simp at hseg
    | cons q qs =>
      rw [hdw] at hseg
      simp only [Option.some.injEq] at hseg
      subst hseg
      refine padBodyChar_seg c (hg c ?_)
      have h1 : c ∈ qs := List.takeWhile_subset _ hc
      have h2 : q :: qs ⊆ g := by
        rw [← hdw]
        exact List.dropWhile_subset _
      exact h2 (by simp [h1])

/-! ### Structure of the shorthand-padding replacement text -/

/-- Literal `g=` — the pair of characters at offsets 6–7 of `padding="`,
used to locate occurrences of `padding="`. -/
def GEQ : List Char := ['g', '=']

theorem take_append_of_le (k : Nat) (u v : List Char) (h : k ≤ u.length) :
    (u ++ v).take k = u.take k := by
  rw [List.take_append_eq_append_take, Nat.sub_eq_zero_of_le h]
  simp

theorem drop_append_of_le (k : Nat) (u v : List Char) (h : k ≤ u.length) :
    (u ++ v).drop k = u.drop k ++ v := by
  rw [List.drop_append_eq_append_drop, Nat.sub_eq_zero_of_le h]
  simp

theorem pfx_take_eq (k : Nat) (u v : List Char) (h : pfx u v = true)
    (hk : k ≤ u.length) : v.take k = u.take k := by
  rcases (pfx_iff u v).mp h with ⟨t, rfl⟩
  exact take_append_of_le k u t hk

/-- A two-character word with an absent first character occurs nowhere in
a segment, and the segment cannot end with that character either. -/
theorem seg_safe_of_not_mem (x y : Char) (seg : List Char) (hx : x ∉ seg) :
    containsSub [x, y] seg = false ∧ seg.getLast? ≠ some x := by
  constructor
  · cases hc : containsSub [x, y] seg with
    | false => rfl
    | true => exact absurd (containsSub_mem _ _ hc x (by simp)) hx
  · intro hl
    exact hx (getLast?_mem_self seg x hl)

/-- A two-character word is absent from a concatenation of segments when
it is absent from each segment and no segment ends with its first
character (so it cannot straddle a junction either). -/
theorem containsSub_two_flatten (x y : Char) :
    ∀ segs : List (List Char),
      (∀ seg ∈ segs, containsSub [x, y] seg = false ∧ seg.getLast? ≠ some x) →
      containsSub [x, y] segs.flatten = false := by
  intro segs
  induction segs with
  | nil => intro _; rw [List.flatten_nil]; rfl
  | cons seg rest ih =>
    intro h
    rw [List.flatten_cons]
    cases hc : containsSub [x, y] (seg ++ rest.flatten) with
    | false => rfl
    | true =>
      exfalso
      rcases containsSub_two x y _ _ hc with hc | hc | ⟨hlast, -⟩
      · rw [(h seg (by simp)).1] at hc
        simp at hc
      · rw [ih (fun s hs => h s (by simp [hs]))] at hc
        simp at hc
      · exact (h seg (by simp)).2 hlast

theorem padRep_flatten (g : List Char) :
    padRep g = [PSA, padTop g, PSB, padRight g, PSC, padTop g,
      PSD, padRight g, ['"']].flatten := by
  simp [padRep]

theorem not_mem_padTop (g : List Char) (hg : padGroupOk g) (x : Char)
    (hx : padBodyChar x = false) : x ∉ padTop g := by
  intro hmem
  exact padBodyChar_ne x x (padTop_chars g hg x hmem) hx rfl

theorem not_mem_padRight (g : List Char) (hg : padGroupOk g) (x : Char)
    (hx : padSegChar x = false) : x ∉ padRight g := by
  intro hmem
  exact padSegChar_ne x x (padRight_chars g hg x hmem) hx rfl

/-- The pair `g=` does not occur in the replacement text: inside the
four literal attribute names every `g` is followed by `-`, and the
interpolated `split(' ')` segments contain no `g` at all. -/
theorem padRep_no_geq (g : List Char) (hg : padGroupOk g) :
    containsSub GEQ (padRep g) = false := by
  rw [padRep_flatten, GEQ]
  refine containsSub_two_flatten 'g' '=' _ ?_
  intro seg hseg
  have htop := seg_safe_of_not_mem 'g' '=' (padTop g)
    (not_mem_padTop g hg 'g' (by decide))
  have hright := seg_safe_of_not_mem 'g' '=' (padRight g)
    (not_mem_padRight g hg 'g' (by decide))
  simp only [List.mem_cons, List.not_mem_nil, or_false] at hseg
  rcases hseg with rfl | rfl | rfl | rfl | rfl | rfl | rfl | rfl | rfl
  · exact ⟨by decide, by decide⟩
  · exact htop
  · exact ⟨by decide, by decide⟩
  · exact hright
  · exact ⟨by decide, by decide⟩
  · exact htop
  · exact ⟨by decide, by decide⟩
  · exact hright
  · exact ⟨by decide, by decide⟩

theorem padRep_take2 (g : List Char) : (padRep g).take 2 = ['p', 'a'] := by
  rw [padRep_flatten, List.flatten_cons, take_append_of_le 2 PSA _ (by decide)]
  decide

theorem padRep_getLast? (g : List Char) :
    (padRep g).getLast? = some '"' := by
  rw [padRep]
  exact getLast?_append_right _ _ _ (by decide)

theorem padRep_mem_l (g : List Char) : 'l' ∈ padRep g := by
  have h : 'l' ∈ PSD := by decide
  rw [padRep]
  simp only [List.mem_append]
  tauto

/-! ### No shorthand-padding match survives the padding pass -/

/-- The full text consumed by a shorthand-padding match with captured
group `g`. -/
def padWindow (g : List Char) : List Char := PKEY ++ g ++ ['"']

/-- Shape of a captured shorthand-padding group. -/
def padShape (g : List Char) : Prop :=
  ∃ d1 w d2 : List Char,
    d1 ≠ [] ∧ (∀ c ∈ d1, c.isDigit = true) ∧
    w ≠ [] ∧ (∀ c ∈ w, isJsWs c = true) ∧
    d2 ≠ [] ∧ (∀ c ∈ d2, c.isDigit = true) ∧
    g = d1 ++ PXL ++ w ++ d2 ++ PXL

theorem padMatchAt_decomp (s g rest : List Char)
    (h : padMatchAt s = some (g, rest)) :
    padShape g ∧ s = padWindow g ++ rest := by
  obtain ⟨d1, w, d2, a1, a2, a3, a4, a5, a6, hg, hs⟩ := padMatchAt_some s g rest h
  refine ⟨⟨d1, w, d2, a1, a2, a3, a4, a5, a6, hg⟩, ?_⟩
  rw [hs, padWindow]

theorem padShape_groupOk (g : List Char) (h : padShape g) : padGroupOk g := by
  obtain ⟨d1, w, d2, -, h2, -, h4, -, h6, rfl⟩ := h
  intro c hc
  simp only [List.append_assoc, List.mem_append] at hc
  rcases hc with hc | hc | hc | hc | hc
  · simp [padBodyChar, h2 c hc]
  · have : c = 'p' ∨ c = 'x' := by simpa [PXL] using hc
    rcases this with rfl | rfl <;> decide
  · simp [padBodyChar, h4 c hc]
  · simp [padBodyChar, h6 c hc]
  · have : c = 'p' ∨ c = 'x' := by simpa [PXL] using hc
    rcases this with rfl | rfl <;> decide

theorem padMatchAt_of_window (g s : List Char) (hsh : padShape g)
    (hW : pfx (padWindow g) s = true) :
    ∃ rest, padMatchAt s = some (g, rest) := by
  obtain ⟨t, rfl⟩ := (pfx_iff _ s).mp hW
  obtain ⟨d1, w, d2, a1, a2, a3, a4, a5, a6, rfl⟩ := hsh
  refine ⟨t, ?_⟩
  have hb := padMatchAt_build d1 w d2 t a1 a2 a3 a4 a5 a6
  simpa [padWindow, List.append_assoc] using hb

theorem padWindow_length (g : List Char) :
    (padWindow g).length = 10 + g.length := by
  rw [padWindow]
  simp [PKEY]
  omega

theorem padWindow_take2 (g : List Char) :
    (padWindow g).take 2 = ['p', 'a'] := by
  rw [padWindow, List.append_assoc, take_append_of_le 2 PKEY _ (by decide)]
  decide

theorem padWindow_getLast? (g : List Char) :
    (padWindow g).getLast? = some '"' := by
  rw [padWindow]
  exact getLast?_append_right _ _ _ (by decide)

theorem padWindow_not_mem_l (g : List Char) (hg : padGroupOk g) :
    'l' ∉ padWindow g := by
  intro hmem
  rw [padWindow] at hmem
  simp only [List.append_assoc, List.mem_append] at hmem
  rcases hmem with hmem | hmem | hmem
  · revert hmem; decide
  · exact padBodyChar_ne 'l' 'l' (hg 'l' hmem) (by decide) rfl
  · revert hmem; decide

theorem padWindow_a_free (g : List Char) (hg : padGroupOk g) :
    'a' ∉ (padWindow g).drop 2 := by
  rw [padWindow, List.append_assoc, drop_append_of_le 2 PKEY _ (by decide)]
  intro hmem
  rcases List.mem_append.mp hmem with hmem | hmem
  · revert hmem; decide
  · rcases List.mem_append.mp hmem with hmem | hmem
    · exact padBodyChar_ne 'a' 'a' (hg 'a' hmem) (by decide) rfl
    · revert hmem; decide

theorem padStep_some (s rep : List Char) (iss : Issue) (rest : List Char)
    (h : padStep s = some (rep, iss, rest)) :
    ∃ g, padMatchAt s = some (g, rest) ∧ rep = padRep g ∧ iss = padIssue g := by
  rw [padStep] at h
  cases hm : padMatchAt s with
  | none => rw [hm] at h; simp at h
  | some x =>
    obtain ⟨g, rst⟩ := x
    rw [hm] at h
    simp only [Option.map_some', Option.some.injEq, Prod.mk.injEq] at h
    obtain ⟨h1, h2, h3⟩ := h
    exact ⟨g, by rw [h3], h1.symm, h2.symm⟩


theorem padStep_none (s : List Char) (h : padMatchAt s = none) :
    padStep s = none := by
  rw [padStep, h]
  rfl

theorem padStep_none_inv (s : List Char) (h : padStep s = none) :
    padMatchAt s = none := by
  rw [padStep] at h
  cases hm : padMatchAt s with
  | none => rfl
  | some x => rw [hm] at h; simp at h

/-- Transfer lemma: a nonempty prefix of the padding pass's output that
ends in `"`, contains no `pa` pair and no `l` is already a prefix of the
input.  (Replacement texts start `pa…` and contain `l`, so such a prefix
can never reach into one.) -/
theorem padScan_transfer :
    ∀ (n : Nat) (cs u : List Char), cs.length ≤ n →
      pfx u ((scanGo padStep n cs).1) = true →
      u.getLast? = some '"' →
      containsSub ['p', 'a'] u = false → 'l' ∉ u →
      pfx u cs = true := by
  intro n
  induction n with
  | zero =>
    intro cs u hn hp hlast _ _
    have : cs = [] := List.eq_nil_of_length_eq_zero (Nat.le_zero.mp hn)
    subst this
    rw [scanGo_nil] at hp
    have := pfx_nil_right u hp
    subst this
    simp at hlast
  | succ n ih =>
    intro cs u hn hp hlast hpa hl
    cases cs with
    | nil =>
      rw [scanGo_nil] at hp
      have := pfx_nil_right u hp
      subst this
      simp at hlast
    | cons c cs' =>
      rw [scanGo] at hp
      cases hm : padStep (c :: cs') with
      | none =>
        rw [hm] at hp
        dsimp only at hp
        cases u with
        | nil => simp at hlast
        | cons x u' =>
          rw [pfx, Bool.and_eq_true, beq_iff_eq] at hp
          obtain ⟨rfl, hp⟩ := hp
          cases u' with
          | nil => simp [pfx]
          | cons y u'' =>
            have hlast2 : (y :: u'').getLast? = some '"' := by
              rw [List.getLast?_cons_cons] at hlast
              exact hlast
            have hpa2 : containsSub ['p', 'a'] (y :: u'') = false := by
              cases hc : containsSub ['p', 'a'] (y :: u'') with
              | false => rfl
              | true =>
                rw [containsSub_cons _ x _ hc] at hpa
                simp at hpa
            have hl2 : 'l' ∉ y :: u'' := fun hmem => hl (by simp [hmem])
            have := ih cs' (y :: u'') (by simpa using Nat.le_of_succ_le_succ hn)
              hp hlast2 hpa2 hl2
            rw [pfx, Bool.and_eq_true, beq_iff_eq]
            exact ⟨rfl, this⟩
      | some trip =>
        obtain ⟨rep, iss, rest⟩ := trip
        obtain ⟨g, hmatch, hrep, -⟩ := padStep_some _ _ _ _ hm
        subst hrep
        rw [hm] at hp
        dsimp only at hp
        by_cases hlen : u.length ≤ (padRep g).length
        · have hu : pfx u (padRep g) = true := pfx_append_within _ _ _ hp hlen
          cases u with
          | nil => simp at hlast
          | cons x u' =>
            cases u' with
            | nil =>
              have hx : x = '"' := by simpa using hlast
              have h1 : (padRep g).take 1 = [x] := by
                have := pfx_take_eq 1 [x] (padRep g) hu (by simp)
                simpa using this
              have h2 : (padRep g).take 1 = ['p'] := by
                have h4 := padRep_take2 g
                have h5 : ((padRep g).take 2).take 1 =
                    (['p', 'a'] : List Char).take 1 := by rw [h4]
                simpa [List.take_take] using h5
              rw [h2] at h1
              simp only [List.cons.injEq] at h1
              rw [hx] at h1
              exact absurd h1.1.symm (by decide)
            | cons y u'' =>
              have h1 : (x :: y :: u'').take 2 = ['p', 'a'] := by
                have := pfx_take_eq 2 (x :: y :: u'') (padRep g) hu (by simp)
                rw [padRep_take2] at this
                exact this.symm
              simp only [List.take_succ_cons, List.take_zero,
                List.cons.injEq, and_true] at h1
              obtain ⟨rfl, rfl⟩ := h1
              have hcpa : containsSub ['p', 'a'] ('p' :: 'a' :: u'') = true := by
                apply containsSub_of_pfx
                simp [pfx]
              rw [hcpa] at hpa
              simp at hpa
        · push_neg at hlen
          obtain ⟨u2, rfl, -⟩ := pfx_append_extend u (padRep g) _ hp hlen
          exact absurd (List.mem_append.mpr (Or.inl (padRep_mem_l g))) hl

/-- Main invariant of the padding pass: its output contains no
shorthand-padding match at any position.  A match in the output would
have to lie inside a replacement text (impossible: `g=` never occurs
there), to straddle a replacement's end (impossible: the text before a
replacement boundary would have to end the `padding="` literal early),
or to lie in untouched text (impossible: the scanner would have fired
there, by the transfer lemma). -/
theorem padScan_no_match :
    ∀ (n : Nat) (s : List Char), s.length ≤ n →
      ∀ i, padMatchAt (((scanGo padStep n s).1).drop i) = none := by
  intro n
  induction n with
  | zero =>
    intro s hn i
    have : s = [] := List.eq_nil_of_length_eq_zero (Nat.le_zero.mp hn)
    subst this
    rw [scanGo_nil]
    simpa using padMatchAt_nil
  | succ n ih =>
    intro s hn i
    cases s with
    | nil =>
      rw [scanGo_nil]
      simpa using padMatchAt_nil
    | cons c cs =>
      rw [scanGo]
      cases hm : padStep (c :: cs) with
      | some trip =>
        obtain ⟨rep, iss, rest⟩ := trip
        obtain ⟨g, hmatch, hrep, -⟩ := padStep_some _ _ _ _ hm
        subst hrep
        dsimp only
        have hgOk : padGroupOk g := padMatchAt_groupOk _ _ _ hmatch
        have hrest_len : rest.length ≤ n := by
          have := padMatchAt_length _ _ _ hmatch
          simp only [List.length_cons] at this hn
          omega
        by_cases hge : (padRep g).length ≤ i
        · rw [List.drop_append_eq_append_drop,
            List.drop_eq_nil_of_le hge, List.nil_append]
          exact ih rest hrest_len _
        · push_neg at hge
          cases hmat : padMatchAt ((padRep g ++ (scanGo padStep n rest).1).drop i) with
          | none => rfl
          | some pr =>
            exfalso
            obtain ⟨g2, r2⟩ := pr
            obtain ⟨hsh2, hdecomp⟩ := padMatchAt_decomp _ _ _ hmat
            have hWpfx : pfx (padWindow g2)
                ((padRep g ++ (scanGo padStep n rest).1).drop i) = true := by
              rw [hdecomp]
              exact pfx_append _ _
            rw [drop_append_of_le i _ _ (le_of_lt hge)] at hWpfx
            have hPKW : pfx PKEY (padWindow g2) = true := by
              rw [padWindow, List.append_assoc]
              exact pfx_append _ _
            have hPK2 : pfx PKEY ((padRep g).drop i ++
                (scanGo padStep n rest).1) = true :=
              pfx_trans _ _ _ hPKW hWpfx
            by_cases hfit : i + 9 ≤ (padRep g).length
            · have hPK : pfx PKEY ((padRep g).drop i) = true := by
                apply pfx_append_within _ _ _ hPK2
                have h9 : PKEY.length = 9 := by decide
                simp only [h9, List.length_drop]
                omega
              have hGEQ : containsSub GEQ ((padRep g).drop i) = true := by
                rcases (pfx_iff PKEY _).mp hPK with ⟨t, ht⟩
                rw [ht]
                have hsplit : PKEY = ['p', 'a', 'd', 'd', 'i', 'n'] ++ GEQ ++ ['"'] := by
                  decide
                rw [hsplit]
                refine (containsSub_iff _ _).mpr
                  ⟨['p', 'a', 'd', 'd', 'i', 'n'], ['"'] ++ t, by simp⟩
              have := containsSub_drop GEQ (padRep g) i hGEQ
              rw [padRep_no_geq g hgOk] at this
              simp at this
            · push_neg at hfit
              have hlenlt : ((padRep g).drop i).length < PKEY.length := by
                have h9 : PKEY.length = 9 := by decide
                simp only [h9, List.length_drop]
                omega
              obtain ⟨k2, hkey, -⟩ :=
                pfx_append_extend PKEY ((padRep g).drop i) _ hPK2 hlenlt
              have hne : (padRep g).drop i ≠ [] := by
                intro hnil
                have : (padRep g).length - i = 0 := by
                  simpa using congrArg List.length hnil
                omega
              have hlastq : ((padRep g).drop i).getLast? = some '"' := by
                rw [getLast?_drop_of_ne_nil _ _ hne]
                exact padRep_getLast? g
              have hqmem : '"' ∈ (padRep g).drop i :=
                getLast?_mem_self _ _ hlastq
              have hsub : (padRep g).drop i ⊆ PKEY.take 8 := by
                intro x hx
                have h1 : x ∈ PKEY.take ((padRep g).drop i).length := by
                  have : PKEY.take ((padRep g).drop i).length = (padRep g).drop i := by
                    rw [hkey, take_append_of_le _ _ _ (le_refl _)]
                    exact List.take_length _
                  rw [this]
                  exact hx
                have h2 : ((padRep g).drop i).length ≤ 8 := by
                  simp only [List.length_drop]
                  have h9 : PKEY.length = 9 := by decide
                  rw [h9] at hlenlt
                  simp only [List.length_drop] at hlenlt
                  omega
                have h3 : PKEY.take ((padRep g).drop i).length =
                    (PKEY.take 8).take ((padRep g).drop i).length := by
                  rw [List.take_take, Nat.min_eq_left h2]
                rw [h3] at h1
                exact List.take_subset _ _ h1
              have : '"' ∈ PKEY.take 8 := hsub hqmem
              revert this
              decide
      | none =>
        dsimp only
        cases i with
        | succ j =>
          simp only [List.drop_succ_cons]
          exact ih cs (by simpa using Nat.le_of_succ_le_succ hn) j
        | zero =>
          simp only [List.drop_zero]
          cases hmat : padMatchAt (c :: (scanGo padStep n cs).1) with
          | none => rfl
          | some pr =>
            exfalso
            obtain ⟨g2, r2⟩ := pr
            obtain ⟨hsh2, hdec⟩ := padMatchAt_decomp _ _ _ hmat
            have hg2Ok := padShape_groupOk g2 hsh2
            have hWlen : 10 ≤ (padWindow g2).length := by
              rw [padWindow_length]
              omega
            obtain ⟨t, ht⟩ :=
              (pfx_iff (padWindow g2) (c :: (scanGo padStep n cs).1)).mp
                (by rw [hdec]; exact pfx_append _ _)
            have hWne : padWindow g2 ≠ [] := by
              intro hnil
              rw [hnil] at hWlen
              simp at hWlen
            obtain ⟨whd, wtl, hw⟩ : ∃ x l, padWindow g2 = x :: l := by
              cases hwc : padWindow g2 with
              | nil => exact absurd hwc hWne
              | cons x l => exact ⟨x, l, rfl⟩
            rw [hw] at ht
            simp only [List.cons_append, List.cons.injEq] at ht
            obtain ⟨rfl, hout⟩ := ht
            have hwtl : wtl = (padWindow g2).drop 1 := by rw [hw]; rfl
            have hpfx_tl : pfx wtl ((scanGo padStep n cs).1) = true := by
              rw [hout]
              exact pfx_append _ _
            have hwne : wtl ≠ [] := by
              intro hnil
              have := congrArg List.length hw
              rw [hnil] at this
              simp at this
              omega
            have hlast : wtl.getLast? = some '"' := by
              rw [hwtl, getLast?_drop_of_ne_nil]
              · exact padWindow_getLast? g2
              · rw [← hwtl]; exact hwne
            have hpa : containsSub ['p', 'a'] wtl = false := by
              cases hc : containsSub ['p', 'a'] wtl with
              | false => rfl
              | true =>
                exfalso
                have := containsSub_second_mem 'p' 'a' wtl hc
                rw [hwtl, List.drop_drop] at this
                exact padWindow_a_free g2 hg2Ok (by simpa using this)
            have hl : 'l' ∉ wtl := by
              intro hmem
              have : 'l' ∈ padWindow g2 := by
                rw [hw]
                simp [hmem]
              exact padWindow_not_mem_l g2 hg2Ok this
            have htrans := padScan_transfer n cs wtl
              (by simpa using Nat.le_of_succ_le_succ hn) hpfx_tl hlast hpa hl
            have hWpfx : pfx (padWindow g2) (c :: cs) = true := by
              rw [hw, pfx, Bool.and_eq_true, beq_iff_eq]
              exact ⟨rfl, htrans⟩
            obtain ⟨rst, hsome⟩ := padMatchAt_of_window g2 (c :: cs) hsh2 hWpfx
            rw [padStep_none_inv _ hm] at hsome
            simp at hsome

/-! ### The `padding="20px 10px"` rewrite -/

/-- The captured group `20px 10px`. -/
def G20 : List Char := ['2', '0', 'p', 'x', ' ', '1', '0', 'p', 'x']

/-- The shorthand occurrence `padding="20px 10px"` named by the spec. -/
def P20 : List Char := padWindow G20

/-- The four per-side attributes the validator substitutes for
`padding="20px 10px"`. -/
def FOUR : List Char :=
  "padding-top=\"20px\" padding-right=\"10px\" padding-bottom=\"20px\" padding-left=\"10px\"".toList

theorem padShape_G20 : padShape G20 :=
  ⟨['2', '0'], [' '], ['1', '0'], by decide, by decide, by decide, by decide,
    by decide, by decide, by decide⟩

theorem padRep_G20 : padRep G20 = FOUR := by decide

theorem containsSub_word_split (w1 w2 X : List Char)
    (h : containsSub (w1 ++ w2) X = true) : containsSub w1 X = true := by
  rcases (containsSub_iff _ X).mp h with ⟨a, b, rfl⟩
  exact (containsSub_iff _ _).mpr ⟨a, w2 ++ b, by simp⟩

theorem P20_split : P20 = ['p', 'a'] ++ P20.drop 2 := by decide

/-- Every occurrence of `padding="20px 10px"` in the input is rewritten:
the padding pass's output contains the four per-side attributes, and a
`padding-format` warning is pushed.  (Occurrences are never skipped —
two shorthand matches cannot overlap, since a match window contains `a`
only at offset 1.) -/
theorem padScan_rewrites :
    ∀ (n : Nat) (s : List Char), s.length ≤ n →
      containsSub P20 s = true →
      containsSub FOUR ((scanGo padStep n s).1) = true ∧
      ∃ iss ∈ (scanGo padStep n s).2, iss.type = "padding-format" := by
  intro n
  induction n with
  | zero =>
    intro s hn hocc
    have : s = [] := List.eq_nil_of_length_eq_zero (Nat.le_zero.mp hn)
    subst this
    exact absurd hocc (by decide)
  | succ n ih =>
    intro s hn hocc
    cases s with
    | nil => exact absurd hocc (by decide)
    | cons c cs =>
      rw [scanGo]
      cases hm : padStep (c :: cs) with
      | some trip =>
        obtain ⟨rep, iss, rest⟩ := trip
        obtain ⟨g, hmatch, hrep, hiss⟩ := padStep_some _ _ _ _ hm
        subst hrep
        subst hiss
        dsimp only
        obtain ⟨hsh, hdec⟩ := padMatchAt_decomp _ _ _ hmatch
        have hgOk := padShape_groupOk g hsh
        have hrest_len : rest.length ≤ n := by
          have := padMatchAt_length _ _ _ hmatch
          simp only [List.length_cons] at this hn
          omega
        rw [containsSub, Bool.or_eq_true] at hocc
        rcases hocc with hocc | hocc
        · -- the occurrence is at position 0: the matcher fires exactly there
          obtain ⟨rst2, hsome2⟩ :=
            padMatchAt_of_window G20 (c :: cs) padShape_G20 (by rw [← P20]; exact hocc)
          rw [hmatch] at hsome2
          simp only [Option.some.injEq, Prod.mk.injEq] at hsome2
          obtain ⟨rfl, -⟩ := hsome2
          rw [padRep_G20]
          refine ⟨containsSub_of_pfx _ _ (pfx_append _ _), ?_⟩
          exact ⟨padIssue G20, by simp, rfl⟩
        · -- the occurrence is strictly inside: it lies in `rest`
          have hcs : cs = (padWindow g).drop 1 ++ rest := by
            have := congrArg (List.drop 1) hdec
            simpa [drop_append_of_le 1 (padWindow g) rest
              (by rw [padWindow_length]; omega)] using this
          rw [hcs] at hocc
          have hocc_rest : containsSub P20 rest = true := by
            rcases containsSub_append_cases P20 _ _ hocc with hcase | hcase | hcase
            · exfalso
              have hpa : containsSub ['p', 'a'] ((padWindow g).drop 1) = true := by
                have := hcase
                rw [P20_split] at this
                exact containsSub_word_split _ _ _ this
              have := containsSub_second_mem 'p' 'a' _ hpa
              rw [List.drop_drop] at this
              exact padWindow_a_free g hgOk (by simpa using this)
            · exact hcase
            · exfalso
              obtain ⟨u1, u2, w2, hsplit, hw, hu2, hw2⟩ := hcase
              cases u2 with
              | nil => exact hu2 rfl
              | cons z u2' =>
                cases u2' with
                | nil =>
                  -- u2 = [z] is the last character of the window tail, which is `"`
                  have hz : z = 'p' := by
                    have : P20 = z :: w2 := by simpa using hw
                    have h0 := congrArg (List.take 1) this
                    simpa [P20, padWindow, PKEY, G20] using h0.symm
                  have hlast : ((padWindow g).drop 1).getLast? = some z := by
                    rw [hsplit]
                    exact getLast?_append_right _ _ _ (by simp)
                  have hne : (padWindow g).drop 1 ≠ [] := by
                    intro hnil
                    have := congrArg List.length hnil
                    rw [List.length_drop, padWindow_length] at this
                    simp at this
                  rw [getLast?_drop_of_ne_nil _ _ hne, padWindow_getLast? g] at hlast
                  simp only [Option.some.injEq] at hlast
                  rw [hz] at hlast
                  exact absurd hlast (by decide)
                | cons z2 u2'' =>
                  -- u2 has length ≥ 2, so it starts `pa` and that `a` sits at
                  -- offset ≥ 2 of the window
                  have hza : z = 'p' ∧ z2 = 'a' := by
                    have : P20 = z :: z2 :: (u2'' ++ w2) := by simpa using hw
                    have h0 := congrArg (List.take 2) this
                    constructor
                    · have h1 := congrArg (fun l => l.get? 0) this
                      simp only [P20, padWindow, PKEY, G20] at h1
                      simp at h1
                      exact h1.symm
                    · have h1 := congrArg (fun l => l.get? 1) this
                      simp only [P20, padWindow, PKEY, G20] at h1
                      simp at h1
                      exact h1.symm
                  have hpa : containsSub ['p', 'a'] ((padWindow g).drop 1) = true := by
                    rw [hsplit]
                    refine (containsSub_iff _ _).mpr ⟨u1, u2'' , ?_⟩
                    rw [hza.1, hza.2]
                    simp
                  have := containsSub_second_mem 'p' 'a' _ hpa
                  rw [List.drop_drop] at this
                  exact padWindow_a_free g hgOk (by simpa using this)
          obtain ⟨hfour, iss2, hiss2, htype⟩ := ih rest hrest_len hocc_rest
          refine ⟨containsSub_append_right _ _ _ hfour, iss2, by simp [hiss2], htype⟩
      | none =>
        dsimp only
        rw [containsSub, Bool.or_eq_true] at hocc
        rcases hocc with hocc | hocc
        · exfalso
          obtain ⟨rst2, hsome2⟩ :=
            padMatchAt_of_window G20 (c :: cs) padShape_G20 (by rw [← P20]; exact hocc)
          rw [padStep_none_inv _ hm] at hsome2
          simp at hsome2
        · obtain ⟨hfour, iss2, hiss2, htype⟩ := ih cs
            (by simpa using Nat.le_of_succ_le_succ hn) hocc
          exact ⟨containsSub_cons _ _ _ hfour, iss2, hiss2, htype⟩

/-! ### Alt-injection pass: decomposition and junction lemmas -/

theorem dropWhile_head_false (p : Char → Bool) :
    ∀ (l : List Char) (x : Char) (xs : List Char),
      l.dropWhile p = x :: xs → p x = false := by
  intro l
  induction l with
  | nil => intro x xs h; simp [List.dropWhile] at h
  | cons c cs ih =>
    intro x xs h
    rw [List.dropWhile] at h
    cases hp : p c with
    | true => rw [hp] at h; exact ih x xs h
    | false =>
      rw [hp] at h
      simp only [List.cons.injEq] at h
      rw [← h.1]
      exact hp

theorem takeWhile_append_all (p : Char → Bool) :
    ∀ (a b : List Char), (∀ c ∈ a, p c = true) →
      (a ++ b).takeWhile p = a ++ b.takeWhile p := by
  intro a
  induction a with
  | nil => intro b _; simp
  | cons x a ih =>
    intro b h
    have hx : p x = true := h x (by simp)
    simp only [List.cons_append, List.takeWhile_cons, hx, if_true]
    rw [ih b (fun c hc => h c (by simp [hc]))]

theorem dropWhile_append_all (p : Char → Bool) :
    ∀ (a b : List Char), (∀ c ∈ a, p c = true) →
      (a ++ b).dropWhile p = b.dropWhile p := by
  intro a
  induction a with
  | nil => intro b _; simp
  | cons x a ih =>
    intro b h
    have hx : p x = true := h x (by simp)
    simp only [List.cons_append, List.dropWhile_cons, hx, if_true]
    exact ih b (fun c hc => h c (by simp [hc]))

theorem altMatchAt_some (s run rest : List Char)
    (h : altMatchAt s = some (run, rest)) :
    s = IKEY ++ run ++ '>' :: rest ∧ (∀ c ∈ run, gtP c = true) ∧
      containsSub ALTEQ run = false := by
  rw [altMatchAt] at h
  dsimp only at h
  split at h
  swap
  · simp at h
  rename_i hp
  split at h
  · simp at h
  rename_i q rest2 ht
  split at h
  · simp at h
  rename_i hca
  simp only [Option.some.injEq, Prod.mk.injEq] at h
  obtain ⟨hrun, hrest⟩ := h
  have hq : gtP q = false := dropWhile_head_false gtP _ _ _ ht
  have hqc : q = '>' := by
    simpa [gtP] using hq
  subst hqc hrun hrest
  refine ⟨?_, takeWhile_all gtP _, by simpa using hca⟩
  have h0 : s = IKEY ++ s.drop 9 := by
    have h := pfx_take IKEY s hp
    have hl : IKEY.length = 9 := by decide
    rw [hl] at h
    conv_lhs => rw [← List.take_append_drop 9 s]
    rw [h]
  conv_lhs => rw [h0]
  rw [List.append_assoc]
  congr 1
  conv_lhs => rw [← List.takeWhile_append_dropWhile gtP (s.drop 9), ht]

theorem altMatchAt_build (run rest : List Char)
    (h1 : ∀ c ∈ run, gtP c = true) (h2 : containsSub ALTEQ run = false) :
    altMatchAt (IKEY ++ run ++ '>' :: rest) = some (run, rest) := by
  have hp : pfx IKEY (IKEY ++ run ++ '>' :: rest) = true := by
    rw [List.append_assoc]
    exact pfx_append _ _
  have hdrop : (IKEY ++ run ++ '>' :: rest).drop 9 = run ++ '>' :: rest := by
    rw [List.append_assoc]
    have : (9 : Nat) = IKEY.length := by decide
    rw [this, List.drop_left]
  have htw : (run ++ '>' :: rest).takeWhile gtP = run := by
    rw [takeWhile_append_all gtP run _ h1]
    simp [List.takeWhile_cons, gtP]
  have hdw : (run ++ '>' :: rest).dropWhile gtP = '>' :: rest := by
    rw [dropWhile_append_all gtP run _ h1]
    simp [List.dropWhile_cons, gtP]
  rw [altMatchAt]
  dsimp only
  rw [hp, hdrop, htw, hdw]
  simp [h2]

theorem altStep_some (s rep : List Char) (iss : Issue) (rest : List Char)
    (h : altStep s = some (rep, iss, rest)) :
    ∃ run, altMatchAt s = some (run, rest) ∧ rep = altRep run ∧
      iss = altIssue := by
  rw [altStep] at h
  cases hm : altMatchAt s with
  | none => rw [hm] at h; simp at h
  | some x =>
    obtain ⟨run, rst⟩ := x
    rw [hm] at h
    simp only [Option.map_some', Option.some.injEq, Prod.mk.injEq] at h
    obtain ⟨h1, h2, h3⟩ := h
    exact ⟨run, by rw [h3], h1.symm, h2.symm⟩

theorem altStep_none_inv (s : List Char) (h : altStep s = none) :
    altMatchAt s = none := by
  rw [altStep] at h
  cases hm : altMatchAt s with
  | none => rfl
  | some x => rw [hm] at h; simp at h

/-- A prefix of `X ++ INS ++ tail` that ends in `"` and avoids `l` stays
within `X`: reaching offset `|X|` would place the final `"` on the ` `
or `a` that open ` alt="Image"`, and reaching offset `|X|+2` would pick
up its `l`. -/
theorem ins_blocked (X tail u : List Char)
    (h : pfx u (X ++ (INS ++ tail)) = true)
    (hl : 'l' ∉ u) (hlast : u.getLast? = some '"') :
    u.length ≤ X.length := by
  by_contra hgt
  push_neg at hgt
  obtain ⟨u2, rfl, hu2⟩ := pfx_append_extend u X _ h hgt
  have hu2ne : u2 ≠ [] := by
    intro hnil
    subst hnil
    simp at hgt
  cases u2 with
  | nil => exact hu2ne rfl
  | cons a u3 =>
    cases u3 with
    | nil =>
      have ha : a = ' ' := by
        simp [INS, pfx] at hu2
        exact hu2
      subst ha
      have he := getLast?_append_right X [' '] ' ' (by simp)
      rw [he] at hlast
      simp at hlast
    | cons b u4 =>
      cases u4 with
      | nil =>
        have hab : a = ' ' ∧ b = 'a' := by
          simp [INS, pfx] at hu2
          exact ⟨hu2.1, hu2.2⟩
        have he := getLast?_append_right X [a, b] b (by simp)
        rw [he] at hlast
        simp only [Option.some.injEq] at hlast
        rw [hab.2] at hlast
        exact absurd hlast (by decide)
      | cons d u5 =>
        have hd : d = 'l' := by
          simp [INS, pfx] at hu2
          exact hu2.2.2.1
        apply hl
        rw [← hd]
        simp

theorem dropWhile_all (p : Char → Bool) :
    ∀ l : List Char, (∀ c ∈ l, p c = true) → l.dropWhile p = [] := by
  intro l
  induction l with
  | nil => intro _; rfl
  | cons c cs ih =>
    intro h
    rw [List.dropWhile_cons, h c (by simp)]
    simp only [if_true]
    exact ih (fun x hx => h x (by simp [hx]))

theorem dropWhile_nil_all (p : Char → Bool) :
    ∀ l : List Char, l.dropWhile p = [] → ∀ c ∈ l, p c = true := by
  intro l
  induction l with
  | nil => intro _ c hc; simp at hc
  | cons x xs ih =>
    intro h c hc
    rw [List.dropWhile_cons] at h
    cases hp : p x with
    | false => rw [hp] at h; simp at h
    | true =>
      rw [hp] at h
      simp only [if_true] at h
      rcases List.mem_cons.mp hc with rfl | hc
      · exact hp
      · exact ih h c hc

theorem pfx_takeWhile (p : Char → Bool) :
    ∀ (w v : List Char), pfx w v = true → (∀ c ∈ w, p c = true) →
      pfx w (v.takeWhile p) = true := by
  intro w
  induction w with
  | nil => intro v _ _; rfl
  | cons x w ih =>
    intro v hp hall
    cases v with
    | nil => simp [pfx] at hp
    | cons y ys =>
      rw [pfx, Bool.and_eq_true, beq_iff_eq] at hp
      obtain ⟨rfl, hp⟩ := hp
      rw [List.takeWhile_cons, hall x (by simp)]
      simp only [if_true]
      rw [pfx, Bool.and_eq_true, beq_iff_eq]
      exact ⟨rfl, ih ys hp (fun c hc => hall c (by simp [hc]))⟩

theorem takeWhile_drop_comm (p : Char → Bool) (v : List Char) (k : Nat)
    (hk : k ≤ (v.takeWhile p).length) :
    (v.drop k).takeWhile p = (v.takeWhile p).drop k := by
  conv_lhs => rw [← List.takeWhile_append_dropWhile p v]
  rw [drop_append_of_le k _ _ hk]
  rw [takeWhile_append_all p _ _
    (fun c hc => takeWhile_all p v c (List.mem_of_mem_drop hc))]
  cases hdw : v.dropWhile p with
  | nil => simp
  | cons q qs =>
    have hq : p q = false := dropWhile_head_false p v q qs hdw
    rw [List.takeWhile_cons, hq]
    simp

theorem altMatchAt_none_of_alt_in_run (v : List Char)
    (h : containsSub ALTEQ ((v.drop 9).takeWhile gtP) = true) :
    altMatchAt v = none := by
  rw [altMatchAt]
  dsimp only
  by_cases hp : pfx IKEY v = true
  · rw [if_pos hp]
    cases hdw : (v.drop 9).dropWhile gtP with
    | nil => rfl
    | cons q qs =>
      dsimp only
      rw [h]
      rfl
  · rw [if_neg hp]

theorem altStep_none (s : List Char) (h : altMatchAt s = none) :
    altStep s = none := by
  rw [altStep, h]
  rfl

theorem altMatchAt_no_gt (v : List Char) (h : '>' ∉ v) :
    altMatchAt v = none := by
  rw [altMatchAt]
  dsimp only
  split
  swap
  · rfl
  have hall : ∀ c ∈ v.drop 9, gtP c = true := by
    intro c hc
    have : c ∈ v := List.mem_of_mem_drop hc
    simp only [gtP, ne_eq, decide_eq_true_eq]
    intro hgt
    subst hgt
    exact h this
  rw [dropWhile_all gtP _ hall]

theorem scanGo_alt_no_gt (n : Nat) (s : List Char) (h : '>' ∉ s) :
    scanGo altStep n s = (s, []) := by
  refine scanGo_noOcc altStep n s (fun i => ?_)
  exact altStep_none _ (altMatchAt_no_gt _
    (fun hmem => h (List.mem_of_mem_drop hmem)))

theorem IKEY_gtP : ∀ c ∈ IKEY, gtP c = true := by decide

theorem INS_gtP : ∀ c ∈ INS, gtP c = true := by decide

theorem gtP_of_not_gt (w : List Char) (h : '>' ∉ w) :
    ∀ c ∈ w, gtP c = true := by
  intro c hc
  simp only [gtP, ne_eq, decide_eq_true_eq]
  intro hgt
  subst hgt
  exact h hc

/-- The `[^>]`-run at the start of the alt pass's output extends the
input's by nothing or by one copy of ` alt="Image"` (the inserted text is
placed immediately before the `>` that ends the run). -/
theorem altScan_S :
    ∀ (n : Nat) (s : List Char), s.length ≤ n →
      ∃ ext, (ext = [] ∨ ext = INS) ∧
        ((scanGo altStep n s).1).takeWhile gtP = s.takeWhile gtP ++ ext := by
  intro n
  induction n with
  | zero =>
    intro s hn
    have : s = [] := List.eq_nil_of_length_eq_zero (Nat.le_zero.mp hn)
    subst this
    exact ⟨[], Or.inl rfl, by simp [scanGo_nil]⟩
  | succ n ih =>
    intro s hn
    cases s with
    | nil => exact ⟨[], Or.inl rfl, by simp [scanGo_nil]⟩
    | cons c cs =>
      rw [scanGo]
      cases hm : altStep (c :: cs) with
      | some trip =>
        obtain ⟨rep, iss, rest⟩ := trip
        obtain ⟨run, hmatch, hrep, -⟩ := altStep_some _ _ _ _ hm
        subst hrep
        obtain ⟨hdec, hrun, -⟩ := altMatchAt_some _ _ _ hmatch
        dsimp only
        refine ⟨INS, Or.inr rfl, ?_⟩
        have hallX : ∀ x ∈ IKEY ++ run, gtP x = true := by
          intro x hx
          rcases List.mem_append.mp hx with hx | hx
          · exact IKEY_gtP x hx
          · exact hrun x hx
        have hs_tw : (c :: cs).takeWhile gtP = IKEY ++ run := by
          rw [hdec, List.append_assoc]
          exact (takeWhile_split gtP _ '>' rest hallX (by decide)).1
        have hout_tw : (altRep run ++ (scanGo altStep n rest).1).takeWhile gtP =
            (IKEY ++ run) ++ INS := by
          rw [altRep]
          have he : IKEY ++ run ++ INS ++ ['>'] ++ (scanGo altStep n rest).1 =
              ((IKEY ++ run) ++ INS) ++ ('>' :: (scanGo altStep n rest).1) := by
            simp
          rw [he]
          refine (takeWhile_split gtP _ '>' _ ?_ (by decide)).1
          intro x hx
          rcases List.mem_append.mp hx with hx | hx
          · exact hallX x hx
          · exact INS_gtP x hx
        rw [hout_tw, hs_tw]
      | none =>
        dsimp only
        by_cases hc : gtP c = true
        · obtain ⟨ext, hext, htw⟩ := ih cs (by simpa using Nat.le_of_succ_le_succ hn)
          refine ⟨ext, hext, ?_⟩
          rw [List.takeWhile_cons, List.takeWhile_cons, hc]
          simp only [if_true, List.cons_append]
          rw [htw]
        · refine ⟨[], Or.inl rfl, ?_⟩
          rw [List.takeWhile_cons, List.takeWhile_cons]
          simp only [Bool.not_eq_true] at hc
          rw [hc]
          simp

/-- Transfer lemma for the alt pass: a nonempty prefix of its output that
ends in `"` and avoids `l` is a prefix of the input. -/
theorem altScan_transfer :
    ∀ (n : Nat) (cs u : List Char), cs.length ≤ n →
      pfx u ((scanGo altStep n cs).1) = true →
      u.getLast? = some '"' → 'l' ∉ u →
      pfx u cs = true := by
  intro n
  induction n with
  | zero =>
    intro cs u hn hp hlast _
    have : cs = [] := List.eq_nil_of_length_eq_zero (Nat.le_zero.mp hn)
    subst this
    rw [scanGo_nil] at hp
    have := pfx_nil_right u hp
    subst this
    simp at hlast
  | succ n ih =>
    intro cs u hn hp hlast hl
    cases cs with
    | nil =>
      rw [scanGo_nil] at hp
      have := pfx_nil_right u hp
      subst this
      simp at hlast
    | cons c cs' =>
      rw [scanGo] at hp
      cases hm : altStep (c :: cs') with
      | none =>
        rw [hm] at hp
        dsimp only at hp
        cases u with
        | nil => simp at hlast
        | cons x u' =>
          rw [pfx, Bool.and_eq_true, beq_iff_eq] at hp
          obtain ⟨rfl, hp⟩ := hp
          cases u' with
          | nil => simp [pfx]
          | cons y u'' =>
            have hlast2 : (y :: u'').getLast? = some '"' := by
              rw [List.getLast?_cons_cons] at hlast
              exact hlast
            have hl2 : 'l' ∉ y :: u'' := fun hmem => hl (by simp [hmem])
            have := ih cs' (y :: u'')
              (by simpa using Nat.le_of_succ_le_succ hn) hp hlast2 hl2
            rw [pfx, Bool.and_eq_true, beq_iff_eq]
            exact ⟨rfl, this⟩
      | some trip =>
        obtain ⟨rep, iss, rest⟩ := trip
        obtain ⟨run, hmatch, hrep, -⟩ := altStep_some _ _ _ _ hm
        subst hrep
        obtain ⟨hdec, hrun, -⟩ := altMatchAt_some _ _ _ hmatch
        rw [hm] at hp
        dsimp only at hp
        have he : altRep run ++ (scanGo altStep n rest).1 =
            (IKEY ++ run) ++ (INS ++ ('>' :: (scanGo altStep n rest).1)) := by
          rw [altRep]
          simp
        rw [he] at hp
        have hle := ins_blocked (IKEY ++ run) _ u hp hl hlast
        have hpin : pfx u (IKEY ++ run) = true :=
          pfx_append_within _ _ _ hp hle
        rw [hdec]
        exact pfx_trans_append u (IKEY ++ run) ('>' :: rest) hpin

/-- A `>`-free word that occurs in the input still occurs in the alt
pass's output: every replacement only inserts text immediately before a
`>`, so no `>`-free occurrence is cut. -/
theorem altScan_preserves_occ :
    ∀ (n : Nat) (s w : List Char), s.length ≤ n → '>' ∉ w →
      containsSub w s = true →
      containsSub w ((scanGo altStep n s).1) = true := by
  intro n
  induction n with
  | zero =>
    intro s w hn _ hocc
    have : s = [] := List.eq_nil_of_length_eq_zero (Nat.le_zero.mp hn)
    subst this
    rw [scanGo_nil]
    exact hocc
  | succ n ih =>
    intro s w hn hw hocc
    cases s with
    | nil =>
      rw [scanGo_nil]
      exact hocc
    | cons c cs =>
      cases hm : altStep (c :: cs) with
      | some trip =>
        obtain ⟨rep, iss, rest⟩ := trip
        obtain ⟨run, hmatch, hrep, -⟩ := altStep_some _ _ _ _ hm
        subst hrep
        obtain ⟨hdec, hrun, -⟩ := altMatchAt_some _ _ _ hmatch
        have hrl : rest.length ≤ n := by
          have h1 := altMatchAt_length _ _ _ hmatch
          have h2 : (c :: cs).length ≤ n + 1 := hn
          simp only [List.length_cons] at h1 h2
          omega
        rw [scanGo, hm]
        dsimp only
        have hout : altRep run ++ (scanGo altStep n rest).1 =
            (IKEY ++ run) ++ (INS ++ ('>' :: (scanGo altStep n rest).1)) := by
          rw [altRep]
          simp
        rw [hout]
        rw [hdec] at hocc
        rcases containsSub_append_cases w (IKEY ++ run) ('>' :: rest) hocc with
          hX | hV | ⟨u1, u2, w2, hu, hwsplit, hu2ne, hpw2⟩
        · exact containsSub_append_left _ _ _ hX
        · rw [containsSub, Bool.or_eq_true] at hV
          rcases hV with hp | hrest
          · cases w with
            | nil => exact containsSub_of_pfx [] _ rfl
            | cons z zs =>
              rw [pfx, Bool.and_eq_true, beq_iff_eq] at hp
              exact absurd (hp.1 ▸ List.mem_cons_self z zs) hw
          · refine containsSub_append_right _ _ _ ?_
            refine containsSub_append_right _ _ _ ?_
            exact containsSub_cons _ _ _ (ih rest w hrl hw hrest)
        · cases w2 with
          | nil =>
            refine containsSub_append_left _ _ _ ?_
            rw [hu]
            refine (containsSub_iff _ _).mpr ⟨u1, [], ?_⟩
            rw [hwsplit]
            simp
          | cons z zs =>
            rw [pfx, Bool.and_eq_true, beq_iff_eq] at hpw2
            have hz : '>' ∈ w := by
              rw [hwsplit, hpw2.1]
              simp
            exact absurd hz hw
      | none =>
        rw [containsSub, Bool.or_eq_true] at hocc
        have hout_eq : (scanGo altStep (n + 1) (c :: cs)).1 =
            c :: (scanGo altStep n cs).1 := by
          rw [scanGo, hm]
        rcases hocc with hp | hocc
        · have hwall : ∀ x ∈ w, gtP x = true := gtP_of_not_gt w hw
          have htw := pfx_takeWhile gtP w (c :: cs) hp hwall
          obtain ⟨ext, -, hS⟩ := altScan_S (n + 1) (c :: cs) hn
          rw [hout_eq] at hS
          have h1 : pfx w ((c :: (scanGo altStep n cs).1).takeWhile gtP) = true := by
            rw [hS]
            exact pfx_trans_append _ _ _ htw
          have h2 : pfx w (c :: (scanGo altStep n cs).1) = true := by
            have h3 := pfx_trans_append w _
              ((c :: (scanGo altStep n cs).1).dropWhile gtP) h1
            rwa [List.takeWhile_append_dropWhile] at h3
          rw [scanGo, hm]
          dsimp only
          exact containsSub_of_pfx _ _ h2
        · rw [scanGo, hm]
          dsimp only
          exact containsSub_cons _ _ _
            (ih cs w (by simpa using Nat.le_of_succ_le_succ hn) hw hocc)

theorem drop_append_len (u v : List Char) (m : Nat) :
    (u ++ v).drop (u.length + m) = v.drop m := by
  induction u with
  | nil => simp
  | cons a u ih =>
    have h : (a :: u).length + m = (u.length + m) + 1 := by
      simp only [List.length_cons]
      omega
    rw [h, List.cons_append, List.drop_succ_cons]
    exact ih

theorem eq_cons_of_take2 (l : List Char) (a b : Char) (h : l.take 2 = [a, b]) :
    ∃ t, l = a :: b :: t := by
  cases l with
  | nil => simp at h
  | cons x l1 =>
    cases l1 with
    | nil => simp at h
    | cons y l2 =>
      simp only [List.take, List.cons.injEq, and_true] at h
      exact ⟨l2, by rw [h.1, h.2]⟩

theorem padMatchAt_head_ne (c : Char) (t : List Char) (hc : c ≠ 'p') :
    padMatchAt (c :: t) = none := by
  cases hpm : padMatchAt (c :: t) with
  | none => rfl
  | some pr =>
    exfalso
    obtain ⟨g, r⟩ := pr
    obtain ⟨-, hceq⟩ := padMatchAt_decomp _ g r hpm
    obtain ⟨tl, hwg⟩ := eq_cons_of_take2 _ 'p' 'a' (padWindow_take2 g)
    rw [hwg] at hceq
    simp only [List.cons_append, List.cons.injEq] at hceq
    exact absurd hceq.1 hc

/-- The alt pass cannot create a shorthand-padding match: if no position
of the input matches the padding regex, no position of the alt pass's
output does either. -/
theorem altScan_preserves_noPad :
    ∀ (n : Nat) (s : List Char), s.length ≤ n →
      (∀ i, padMatchAt (s.drop i) = none) →
      ∀ i, padMatchAt (((scanGo altStep n s).1).drop i) = none := by
  intro n
  induction n with
  | zero =>
    intro s hn _ i
    have : s = [] := List.eq_nil_of_length_eq_zero (Nat.le_zero.mp hn)
    subst this
    rw [scanGo_nil]
    simpa using padMatchAt_nil
  | succ n ih =>
    intro s hn h i
    cases s with
    | nil =>
      rw [scanGo_nil]
      simpa using padMatchAt_nil
    | cons c cs =>
      cases hm : altStep (c :: cs) with
      | none =>
        have hout_eq : (scanGo altStep (n + 1) (c :: cs)).1 =
            c :: (scanGo altStep n cs).1 := by
          rw [scanGo, hm]
        rw [hout_eq]
        cases i with
        | zero =>
          simp only [List.drop_zero]
          cases hpm : padMatchAt (c :: (scanGo altStep n cs).1) with
          | none => rfl
          | some pr =>
            exfalso
            obtain ⟨g, r⟩ := pr
            obtain ⟨hsh, hceq⟩ := padMatchAt_decomp _ g r hpm
            have hpfx : pfx (padWindow g) (c :: (scanGo altStep n cs).1) = true := by
              rw [hceq]
              exact pfx_append _ _
            have hgok := padShape_groupOk g hsh
            rw [← hout_eq] at hpfx
            have htr := altScan_transfer (n + 1) (c :: cs) (padWindow g) hn hpfx
              (padWindow_getLast? g) (padWindow_not_mem_l g hgok)
            obtain ⟨r2, hr2⟩ := padMatchAt_of_window g _ hsh htr
            have h0 := h 0
            simp only [List.drop_zero] at h0
            rw [h0] at hr2
            exact Option.noConfusion hr2
        | succ i =>
          rw [List.drop_succ_cons]
          exact ih cs (by simpa using Nat.le_of_succ_le_succ hn)
            (fun k => by simpa using h (k + 1)) i
      | some trip =>
        obtain ⟨rep, iss, rest⟩ := trip
        obtain ⟨run, hmatch, hrep, -⟩ := altStep_some _ _ _ _ hm
        subst hrep
        obtain ⟨hdec, hrun, -⟩ := altMatchAt_some _ _ _ hmatch
        have hrl : rest.length ≤ n := by
          have h1 := altMatchAt_length _ _ _ hmatch
          have h2 : (c :: cs).length ≤ n + 1 := hn
          simp only [List.length_cons] at h1 h2
          omega
        have hrest_h : ∀ k, padMatchAt (rest.drop k) = none := by
          intro k
          have hkey := h ((IKEY ++ run).length + (1 + k))
          rw [hdec, drop_append_len (IKEY ++ run) ('>' :: rest) (1 + k)] at hkey
          have : ('>' :: rest).drop (1 + k) = rest.drop k := by
            rw [Nat.add_comm, List.drop_succ_cons]
          rwa [this] at hkey
        have IHrest := ih rest hrl hrest_h
        rw [scanGo, hm]
        dsimp only
        have hout : altRep run ++ (scanGo altStep n rest).1 =
            (IKEY ++ run) ++ (INS ++ ('>' :: (scanGo altStep n rest).1)) := by
          rw [altRep]
          simp
        rw [hout]
        by_cases hi : i ≤ (IKEY ++ run).length
        · rw [drop_append_of_le i (IKEY ++ run) _ hi]
          cases hpm : padMatchAt ((IKEY ++ run).drop i ++
              (INS ++ ('>' :: (scanGo altStep n rest).1))) with
          | none => rfl
          | some pr =>
            exfalso
            obtain ⟨g, r⟩ := pr
            obtain ⟨hsh, hceq⟩ := padMatchAt_decomp _ g r hpm
            have hpfx : pfx (padWindow g) ((IKEY ++ run).drop i ++
                (INS ++ ('>' :: (scanGo altStep n rest).1))) = true := by
              rw [hceq]
              exact pfx_append _ _
            have hgok := padShape_groupOk g hsh
            have hle := ins_blocked ((IKEY ++ run).drop i) _ (padWindow g) hpfx
              (padWindow_not_mem_l g hgok) (padWindow_getLast? g)
            have hwin : pfx (padWindow g) ((IKEY ++ run).drop i) = true :=
              pfx_append_within _ _ _ hpfx hle
            have hsdrop : (c :: cs).drop i =
                (IKEY ++ run).drop i ++ ('>' :: rest) := by
              rw [hdec]
              exact drop_append_of_le i (IKEY ++ run) _ hi
            have hpfx2 : pfx (padWindow g) ((c :: cs).drop i) = true := by
              rw [hsdrop]
              exact pfx_trans_append _ _ _ hwin
            obtain ⟨r2, hr2⟩ := padMatchAt_of_window g _ hsh hpfx2
            rw [h i] at hr2
            exact Option.noConfusion hr2
        · push_neg at hi
          have hij : i = (IKEY ++ run).length + (i - (IKEY ++ run).length) := by
            omega
          have hdropi : ((IKEY ++ run) ++
              (INS ++ ('>' :: (scanGo altStep n rest).1))).drop i =
              (INS ++ ('>' :: (scanGo altStep n rest).1)).drop
                (i - (IKEY ++ run).length) := by
            conv_lhs => rw [hij]
            rw [drop_append_len]
          rw [hdropi]
          by_cases hj12 : i - (IKEY ++ run).length < 12
          · have hIl : (12 : Nat) = INS.length := by decide
            rw [drop_append_of_le _ INS _ (by omega)]
            cases hins : INS.drop (i - (IKEY ++ run).length) with
            | nil =>
              exfalso
              have hlen : (INS.drop (i - (IKEY ++ run).length)).length =
                  12 - (i - (IKEY ++ run).length) := by
                simp [← hIl]
              rw [hins] at hlen
              simp only [List.length_nil] at hlen
              omega
            | cons y ys =>
              rw [List.cons_append]
              refine padMatchAt_head_ne y _ ?_
              intro hyp
              have hyI : y ∈ INS := by
                refine List.mem_of_mem_drop (l := INS)
                  (n := i - (IKEY ++ run).length) ?_
                rw [hins]
                exact List.mem_cons_self y ys
              rw [hyp] at hyI
              revert hyI
              decide
          · have hIl : INS.length = 12 := by decide
            have hj2 : i - (IKEY ++ run).length =
                INS.length + (i - (IKEY ++ run).length - 12) := by
              rw [hIl]
              omega
            rw [hj2, drop_append_len]
            cases hk : i - (IKEY ++ run).length - 12 with
            | zero =>
              simp only [List.drop_zero]
              exact padMatchAt_head_ne '>' _ (by decide)
            | succ k =>
              rw [List.drop_succ_cons]
              exact IHrest k

theorem eq_cons_of_take1 (l : List Char) (a : Char) (h : l.take 1 = [a]) :
    ∃ t, l = a :: t := by
  cases l with
  | nil => simp at h
  | cons x l1 =>
    simp only [List.take, List.cons.injEq, and_true] at h
    exact ⟨l1, by rw [h]⟩

theorem altMatchAt_head_ne (c : Char) (t : List Char) (hc : c ≠ '<') :
    altMatchAt (c :: t) = none := by
  cases hpm : altMatchAt (c :: t) with
  | none => rfl
  | some pr =>
    exfalso
    obtain ⟨run2, rest2⟩ := pr
    obtain ⟨hdec2, -, -⟩ := altMatchAt_some _ _ _ hpm
    obtain ⟨tl, hIK⟩ := eq_cons_of_take1 IKEY '<' (by decide)
    rw [hIK] at hdec2
    simp only [List.cons_append, List.append_assoc, List.cons.injEq] at hdec2
    exact absurd hdec2.1 hc

/-- The alt pass is exhaustive: no position of its output matches the
alt-injection regex again (each replacement carries `alt="Image"` inside
its attribute run, which defeats the negative lookahead). -/
theorem altScan_no_match :
    ∀ (n : Nat) (s : List Char), s.length ≤ n →
      ∀ i, altMatchAt (((scanGo altStep n s).1).drop i) = none := by
  intro n
  induction n with
  | zero =>
    intro s hn i
    have : s = [] := List.eq_nil_of_length_eq_zero (Nat.le_zero.mp hn)
    subst this
    rw [scanGo_nil]
    simpa using altMatchAt_nil
  | succ n ih =>
    intro s hn i
    cases s with
    | nil =>
      rw [scanGo_nil]
      simpa using altMatchAt_nil
    | cons c cs =>
      cases hm : altStep (c :: cs) with
      | some trip =>
        obtain ⟨rep, iss, rest⟩ := trip
        obtain ⟨run, hmatch, hrep, -⟩ := altStep_some _ _ _ _ hm
        subst hrep
        obtain ⟨hdec, hrun, -⟩ := altMatchAt_some _ _ _ hmatch
        have hrl : rest.length ≤ n := by
          have h1 := altMatchAt_length _ _ _ hmatch
          have h2 : (c :: cs).length ≤ n + 1 := hn
          simp only [List.length_cons] at h1 h2
          omega
        have IHrest := ih rest hrl
        rw [scanGo, hm]
        dsimp only
        have hout : altRep run ++ (scanGo altStep n rest).1 =
            (IKEY ++ run) ++ (INS ++ ('>' :: (scanGo altStep n rest).1)) := by
          rw [altRep]
          simp
        rw [hout]
        have hallX : ∀ x ∈ IKEY ++ run, gtP x = true := by
          intro x hx
          rcases List.mem_append.mp hx with hx | hx
          · exact IKEY_gtP x hx
          · exact hrun x hx
        by_cases hi : i ≤ (IKEY ++ run).length
        · rw [drop_append_of_le i (IKEY ++ run) _ hi]
          by_cases h9 : 9 ≤ ((IKEY ++ run).drop i).length
          · apply altMatchAt_none_of_alt_in_run
            rw [drop_append_of_le 9 _ _ h9]
            rw [takeWhile_append_all gtP _ _ (fun x hx => hallX x
              (List.mem_of_mem_drop (List.mem_of_mem_drop hx)))]
            rw [(takeWhile_split gtP INS '>' _ INS_gtP (by decide)).1]
            exact containsSub_append_right _ _ _ (by decide)
          · push_neg at h9
            cases hpm : altMatchAt ((IKEY ++ run).drop i ++
                (INS ++ ('>' :: (scanGo altStep n rest).1))) with
            | none => rfl
            | some pr =>
              exfalso
              obtain ⟨run2, rest2⟩ := pr
              obtain ⟨hdec2, -, -⟩ := altMatchAt_some _ _ _ hpm
              have hpf : pfx IKEY ((IKEY ++ run).drop i ++
                  (INS ++ ('>' :: (scanGo altStep n rest).1))) = true := by
                rw [hdec2, List.append_assoc]
                exact pfx_append _ _
              have hIl : IKEY.length = 9 := by decide
              obtain ⟨k2, hIKeq, hk2⟩ := pfx_append_extend IKEY _ _ hpf (by omega)
              cases k2 with
              | nil =>
                have hlen := congrArg List.length hIKeq
                simp only [hIl, List.length_append, List.length_nil] at hlen
                omega
              | cons y ys =>
                obtain ⟨tl, hins0⟩ := eq_cons_of_take1 INS ' ' (by decide)
                rw [hins0, List.cons_append] at hk2
                rw [pfx, Bool.and_eq_true, beq_iff_eq] at hk2
                have hyI : y ∈ IKEY := by
                  rw [hIKeq]
                  simp
                rw [hk2.1] at hyI
                revert hyI
                decide
        · push_neg at hi
          have hij : i = (IKEY ++ run).length + (i - (IKEY ++ run).length) := by
            omega
          have hdropi : ((IKEY ++ run) ++
              (INS ++ ('>' :: (scanGo altStep n rest).1))).drop i =
              (INS ++ ('>' :: (scanGo altStep n rest).1)).drop
                (i - (IKEY ++ run).length) := by
            conv_lhs => rw [hij]
            rw [drop_append_len]
          rw [hdropi]
          by_cases hj12 : i - (IKEY ++ run).length < 12
          · have hIl : (12 : Nat) = INS.length := by decide
            rw [drop_append_of_le _ INS _ (by omega)]
            cases hins : INS.drop (i - (IKEY ++ run).length) with
            | nil =>
              exfalso
              have hlen : (INS.drop (i - (IKEY ++ run).length)).length =
                  12 - (i - (IKEY ++ run).length) := by
                simp [← hIl]
              rw [hins] at hlen
              simp only [List.length_nil] at hlen
              omega
            | cons y ys =>
              rw [List.cons_append]
              refine altMatchAt_head_ne y _ ?_
              intro hyp
              have hyI : y ∈ INS := by
                refine List.mem_of_mem_drop (l := INS)
                  (n := i - (IKEY ++ run).length) ?_
                rw [hins]
                exact List.mem_cons_self y ys
              rw [hyp] at hyI
              revert hyI
              decide
          · have hIl : INS.length = 12 := by decide
            have hj2 : i - (IKEY ++ run).length =
                INS.length + (i - (IKEY ++ run).length - 12) := by
              rw [hIl]
              omega
            rw [hj2, drop_append_len]
            cases hk : i - (IKEY ++ run).length - 12 with
            | zero =>
              simp only [List.drop_zero]
              exact altMatchAt_head_ne '>' _ (by decide)
            | succ k =>
              rw [List.drop_succ_cons]
              exact IHrest k
      | none =>
        have hnone0 : altMatchAt (c :: cs) = none := altStep_none_inv _ hm
        have hout_eq : (scanGo altStep (n + 1) (c :: cs)).1 =
            c :: (scanGo altStep n cs).1 := by
          rw [scanGo, hm]
        rw [hout_eq]
        cases i with
        | succ i =>
          rw [List.drop_succ_cons]
          exact ih cs (by simpa using Nat.le_of_succ_le_succ hn) i
        | zero =>
          simp only [List.drop_zero]
          cases hpm : altMatchAt (c :: (scanGo altStep n cs).1) with
          | none => rfl
          | some pr =>
            exfalso
            obtain ⟨run_o, r_o⟩ := pr
            obtain ⟨hdec2, hrun_o, hno⟩ := altMatchAt_some _ _ _ hpm
            have hpfo : pfx IKEY (c :: (scanGo altStep n cs).1) = true := by
              rw [hdec2, List.append_assoc]
              exact pfx_append _ _
            have htwo : pfx IKEY ((c :: (scanGo altStep n cs).1).takeWhile gtP) = true :=
              pfx_takeWhile gtP IKEY _ hpfo IKEY_gtP
            obtain ⟨ext, hext, hS⟩ := altScan_S (n + 1) (c :: cs) hn
            rw [hout_eq] at hS
            rw [hS] at htwo
            have hIl : IKEY.length = 9 := by decide
            have hIK : pfx IKEY (c :: cs) = true := by
              by_cases h9 : 9 ≤ ((c :: cs).takeWhile gtP).length
              · have hwithin : pfx IKEY ((c :: cs).takeWhile gtP) = true :=
                  pfx_append_within _ _ _ htwo (by omega)
                have h3 := pfx_trans_append IKEY _
                  ((c :: cs).dropWhile gtP) hwithin
                rwa [List.takeWhile_append_dropWhile] at h3
              · exfalso
                push_neg at h9
                obtain ⟨k2, hIKeq, hk2⟩ :=
                  pfx_append_extend IKEY _ _ htwo (by omega)
                cases k2 with
                | nil =>
                  have hlen := congrArg List.length hIKeq
                  simp only [hIl, List.length_append, List.length_nil] at hlen
                  omega
                | cons y ys =>
                  rcases hext with rfl | rfl
                  · simp [pfx] at hk2
                  · obtain ⟨tl, hins0⟩ := eq_cons_of_take1 INS ' ' (by decide)
                    rw [hins0] at hk2
                    rw [pfx, Bool.and_eq_true, beq_iff_eq] at hk2
                    have hyI : y ∈ IKEY := by
                      rw [hIKeq]
                      simp
                    rw [hk2.1] at hyI
                    revert hyI
                    decide
            have hsplit : (c :: cs) = IKEY ++ (c :: cs).drop 9 := by
              have h := pfx_take IKEY _ hIK
              rw [hIl] at h
              conv_lhs => rw [← List.take_append_drop 9 (c :: cs), h]
            have hnone1 := hnone0
            rw [altMatchAt] at hnone1
            dsimp only at hnone1
            rw [if_pos hIK] at hnone1
            cases hdw : ((c :: cs).drop 9).dropWhile gtP with
            | nil =>
              have hnogt : '>' ∉ (c :: cs) := by
                intro hmem
                rw [hsplit] at hmem
                rcases List.mem_append.mp hmem with hmem | hmem
                · revert hmem; decide
                · have hgt := dropWhile_nil_all gtP _ hdw '>' hmem
                  simp [gtP] at hgt
              have hscan := scanGo_alt_no_gt n cs
                (fun hmem => hnogt (List.mem_cons_of_mem c hmem))
              rw [hscan] at hpm
              dsimp only at hpm
              rw [hnone0] at hpm
              exact Option.noConfusion hpm
            | cons q qs =>
              rw [hdw] at hnone1
              dsimp only at hnone1
              by_cases hca : containsSub ALTEQ (((c :: cs).drop 9).takeWhile gtP) = true
              · have h1 : c :: (scanGo altStep n cs).1 =
                    IKEY ++ (run_o ++ '>' :: r_o) := by
                  rw [hdec2, List.append_assoc]
                have htw_o : (c :: (scanGo altStep n cs).1).takeWhile gtP =
                    IKEY ++ run_o := by
                  rw [h1, takeWhile_append_all gtP IKEY _ IKEY_gtP,
                    (takeWhile_split gtP run_o '>' r_o hrun_o (by decide)).1]
                have htw_s : (c :: cs).takeWhile gtP =
                    IKEY ++ ((c :: cs).drop 9).takeWhile gtP := by
                  conv_lhs => rw [hsplit]
                  rw [takeWhile_append_all gtP IKEY _ IKEY_gtP]
                rw [htw_o, htw_s, List.append_assoc] at hS
                have hrun_eq : run_o = ((c :: cs).drop 9).takeWhile gtP ++ ext :=
                  List.append_cancel_left hS
                rw [hrun_eq] at hno
                have hc2 := containsSub_append_left ALTEQ _ ext hca
                rw [hno] at hc2
                exact Bool.noConfusion hc2
              · rw [if_neg hca] at hnone1
                exact Option.noConfusion hnone1

/-! ### A document model for the alt pass (claim C8)

A document is presented as a list of `<mj-image ...>` tags, each carrying
the plain text that precedes it and its attribute run, followed by a
trailing text segment.  Well-formedness (`imgDocOK`) asks that plain text
and attribute runs contain no `<` (so tag keys occur only at tag starts)
and that attribute runs contain no `>` (so each tag ends at its own `>`),
which is exactly the class of inputs on which "each `mj-image` node" is
meaningful. -/

def renderImgDoc : List (List Char × List Char) → List Char → List Char
  | [], tl => tl
  | p :: ps, tl => p.1 ++ IKEY ++ p.2 ++ '>' :: renderImgDoc ps tl

def fixImgDoc : List (List Char × List Char) → List Char → List Char
  | [], tl => tl
  | p :: ps, tl =>
    p.1 ++ IKEY ++ p.2 ++
      (if containsSub ALTEQ p.2 then [] else INS) ++ '>' :: fixImgDoc ps tl

def countNoAlt : List (List Char × List Char) → Nat
  | [] => 0
  | p :: ps => (if containsSub ALTEQ p.2 then 0 else 1) + countNoAlt ps

@[reducible] def imgDocOK (doc : List (List Char × List Char)) (tl : List Char) : Prop :=
  (∀ p ∈ doc, '<' ∉ p.1 ∧ '>' ∉ p.2 ∧ '<' ∉ p.2) ∧ '<' ∉ tl

theorem altMatchAt_no_lt (v : List Char) (h : '<' ∉ v) :
    altMatchAt v = none := by
  cases hpm : altMatchAt v with
  | none => rfl
  | some pr =>
    exfalso
    obtain ⟨run2, rest2⟩ := pr
    obtain ⟨hdec2, -, -⟩ := altMatchAt_some _ _ _ hpm
    apply h
    rw [hdec2]
    exact List.mem_append.mpr (Or.inl (List.mem_append.mpr (Or.inl (by decide))))

theorem altMatchAt_build_none (run rest : List Char)
    (h1 : ∀ c ∈ run, gtP c = true) (h2 : containsSub ALTEQ run = true) :
    altMatchAt (IKEY ++ run ++ '>' :: rest) = none := by
  have hp : pfx IKEY (IKEY ++ run ++ '>' :: rest) = true := by
    rw [List.append_assoc]
    exact pfx_append _ _
  have hdrop : (IKEY ++ run ++ '>' :: rest).drop 9 = run ++ '>' :: rest := by
    rw [List.append_assoc]
    have h9 : (9 : Nat) = IKEY.length := by decide
    rw [h9, List.drop_left]
  have htw : (run ++ '>' :: rest).takeWhile gtP = run :=
    (takeWhile_split gtP run '>' rest h1 (by decide)).1
  have hdw : (run ++ '>' :: rest).dropWhile gtP = '>' :: rest :=
    (takeWhile_split gtP run '>' rest h1 (by decide)).2
  rw [altMatchAt]
  dsimp only
  rw [hp, hdrop, htw, hdw]
  simp [h2]

theorem scanGo_step_some (step : List Char → Option (List Char × Issue × List Char))
    (hdec : ∀ s rep iss rest, step s = some (rep, iss, rest) →
      rest.length < s.length)
    (s rep : List Char) (iss : Issue) (rest : List Char) (n : Nat)
    (hs : step s = some (rep, iss, rest)) (hn : s.length ≤ n) (hne : s ≠ []) :
    scanGo step n s =
      (rep ++ (scanGo step rest.length rest).1,
        iss :: (scanGo step rest.length rest).2) := by
  cases n with
  | zero =>
    cases s with
    | nil => exact absurd rfl hne
    | cons c cs => simp at hn
  | succ n =>
    cases s with
    | nil => exact absurd rfl hne
    | cons c cs =>
      rw [scanGo, hs]
      dsimp only
      have hr : rest.length ≤ n := by
        have hd := hdec _ _ _ _ hs
        simp only [List.length_cons] at hd hn
        omega
      rw [scanGo_fuelIrrel step hdec n rest.length rest hr (le_refl _)]

/-- The alt pass on a well-formed image document: every tag lacking
`alt=` in its attribute run gains ` alt="Image"` just before its `>`
(with one warning pushed per such tag), every tag whose run already
contains `alt=` is copied byte-for-byte, and all surrounding text is
copied unchanged. -/
theorem altScan_doc :
    ∀ (doc : List (List Char × List Char)) (tl : List Char) (n : Nat),
      imgDocOK doc tl → (renderImgDoc doc tl).length ≤ n →
      scanGo altStep n (renderImgDoc doc tl) =
        (fixImgDoc doc tl, List.replicate (countNoAlt doc) altIssue) := by
  intro doc
  induction doc with
  | nil =>
    intro tl n hok hn
    simp only [renderImgDoc, fixImgDoc, countNoAlt, List.replicate]
    refine scanGo_noOcc altStep n tl (fun i => ?_)
    refine altStep_none _ (altMatchAt_no_lt _ ?_)
    intro hmem
    exact hok.2 (List.mem_of_mem_drop hmem)
  | cons p ps ih =>
    intro tl n hok hn
    obtain ⟨s, a⟩ := p
    have hself := hok.1 (s, a) (List.mem_cons_self _ _)
    obtain ⟨hsl, hag, hal⟩ := hself
    have hokps : imgDocOK ps tl :=
      ⟨fun q hq => hok.1 q (List.mem_cons_of_mem _ hq), hok.2⟩
    have hren : renderImgDoc ((s, a) :: ps) tl =
        s ++ (IKEY ++ a ++ '>' :: renderImgDoc ps tl) := by
      simp [renderImgDoc, List.append_assoc]
    rw [hren] at hn ⊢
    have hwalkocc : ∀ i, i < s.length →
        altStep ((s ++ (IKEY ++ a ++ '>' :: renderImgDoc ps tl)).drop i) = none := by
      intro i hi
      rw [drop_append_of_le i s _ (Nat.le_of_lt hi)]
      cases hsd : s.drop i with
      | nil =>
        exfalso
        have hlen := congrArg List.length hsd
        simp only [List.length_drop, List.length_nil] at hlen
        omega
      | cons y ys =>
        rw [List.cons_append]
        refine altStep_none _ (altMatchAt_head_ne y _ ?_)
        intro hyp
        have hyI : y ∈ s := by
          refine List.mem_of_mem_drop (l := s) (n := i) ?_
          rw [hsd]
          exact List.mem_cons_self y ys
        rw [hyp] at hyI
        exact hsl hyI
    rw [scanGo_walk altStep altStep_dec s n _ hn hwalkocc]
    have hrun : ∀ c ∈ a, gtP c = true := gtP_of_not_gt a hag
    cases hca : containsSub ALTEQ a with
    | false =>
      have hmatch := altMatchAt_build a (renderImgDoc ps tl) hrun hca
      have hstep : altStep (IKEY ++ a ++ '>' :: renderImgDoc ps tl) =
          some (altRep a, altIssue, renderImgDoc ps tl) := by
        rw [altStep, hmatch]
        rfl
      have hne : IKEY ++ a ++ '>' :: renderImgDoc ps tl ≠ [] := by
        intro heq
        have hlen := congrArg List.length heq
        simp only [List.length_append, List.length_cons, List.length_nil] at hlen
        omega
      rw [scanGo_step_some altStep altStep_dec _ _ _ _ _ hstep (le_refl _) hne]
      rw [ih tl (renderImgDoc ps tl).length hokps (le_refl _)]
      dsimp only
      have hcount : countNoAlt ((s, a) :: ps) = countNoAlt ps + 1 := by
        simp [countNoAlt, hca, Nat.add_comm]
      rw [hcount, List.replicate_succ, Prod.mk.injEq]
      constructor
      · simp [fixImgDoc, hca, altRep, List.append_assoc]
      · rfl
    | true =>
      have hsegeq : IKEY ++ a ++ '>' :: renderImgDoc ps tl =
          (IKEY ++ a ++ ['>']) ++ renderImgDoc ps tl := by
        simp
      rw [hsegeq]
      obtain ⟨itl, hIK⟩ := eq_cons_of_take1 IKEY '<' (by decide)
      have hitl : '<' ∉ itl := by
        have h2 : itl = IKEY.drop 1 := by
          rw [hIK]
          rfl
        rw [h2]
        decide
      have hseglt : '<' ∉ itl ++ a ++ ['>'] := by
        intro hmem
        simp only [List.append_assoc, List.mem_append] at hmem
        rcases hmem with hmem | hmem | hmem
        · exact hitl hmem
        · exact hal hmem
        · revert hmem; decide
      have hocc2 : ∀ i, i < (IKEY ++ a ++ ['>']).length →
          altStep (((IKEY ++ a ++ ['>']) ++ renderImgDoc ps tl).drop i) = none := by
        intro i hi
        cases i with
        | zero =>
          simp only [List.drop_zero]
          refine altStep_none _ ?_
          have hre : (IKEY ++ a ++ ['>']) ++ renderImgDoc ps tl =
              IKEY ++ a ++ '>' :: renderImgDoc ps tl := by
            simp
          rw [hre]
          exact altMatchAt_build_none a _ hrun hca
        | succ i =>
          have hre : (IKEY ++ a ++ ['>']) ++ renderImgDoc ps tl =
              '<' :: ((itl ++ a ++ ['>']) ++ renderImgDoc ps tl) := by
            rw [hIK]
            simp
          rw [hre, List.drop_succ_cons]
          have hi2 : i < (itl ++ a ++ ['>']).length := by
            have hl1 := congrArg List.length hIK
            simp only [List.length_cons] at hl1
            simp only [List.length_append, List.length_cons,
              List.length_nil] at hi ⊢
            omega
          rw [drop_append_of_le i _ _ (Nat.le_of_lt hi2)]
          cases hsd : (itl ++ a ++ ['>']).drop i with
          | nil =>
            exfalso
            have hlen := congrArg List.length hsd
            simp only [List.length_drop, List.length_nil] at hlen
            omega
          | cons y ys =>
            rw [List.cons_append]
            refine altStep_none _ (altMatchAt_head_ne y _ ?_)
            intro hyp
            have hyI : y ∈ itl ++ a ++ ['>'] := by
              refine List.mem_of_mem_drop (l := itl ++ a ++ ['>']) (n := i) ?_
              rw [hsd]
              exact List.mem_cons_self y ys
            rw [hyp] at hyI
            exact hseglt hyI
      rw [scanGo_walk altStep altStep_dec (IKEY ++ a ++ ['>'])
        ((IKEY ++ a ++ ['>']) ++ renderImgDoc ps tl).length _ (le_refl _) hocc2]
      rw [ih tl (renderImgDoc ps tl).length hokps (le_refl _)]
      dsimp only
      rw [Prod.mk.injEq]
      constructor
      · simp [fixImgDoc, hca, List.append_assoc]
      · simp [countNoAlt, hca]

theorem countOcc_append_left_free (w u v : List Char)
    (h : ∀ i, i < u.length → pfx w ((u ++ v).drop i) = false) :
    countOcc w (u ++ v) = countOcc w v := by
  induction u with
  | nil => simp
  | cons c cs ih =>
    rw [List.cons_append, countOcc]
    have h0 := h 0 (by simp)
    simp only [List.drop_zero, List.cons_append] at h0
    rw [h0]
    have hsh : ∀ i, i < cs.length → pfx w ((cs ++ v).drop i) = false := by
      intro i hi
      have := h (i + 1) (by simpa using Nat.succ_lt_succ hi)
      simpa using this
    rw [ih hsh]
    simp

/-- An attribute run with no `alt=` occurrence, once extended by the
injected ` alt="Image"`, contains exactly one `alt=` occurrence: the
boundary cannot create one because `alt=` has no space character. -/
theorem alt_ins_once (a : List Char) (hno : containsSub ALTEQ a = false) :
    countOcc ALTEQ (a ++ INS) = 1 := by
  have h : ∀ i, i < a.length → pfx ALTEQ ((a ++ INS).drop i) = false := by
    intro i hi
    cases hp : pfx ALTEQ ((a ++ INS).drop i) with
    | false => rfl
    | true =>
      exfalso
      rw [drop_append_of_le i a INS (Nat.le_of_lt hi)] at hp
      by_cases h4 : ALTEQ.length ≤ (a.drop i).length
      · have hwithin := pfx_append_within _ _ _ hp h4
        have hocc := containsSub_drop ALTEQ a i
          (containsSub_of_pfx _ _ hwithin)
        rw [hno] at hocc
        exact Bool.noConfusion hocc
      · push_neg at h4
        obtain ⟨k2, hEeq, hk2⟩ := pfx_append_extend _ _ _ hp h4
        cases k2 with
        | nil =>
          have hlen := congrArg List.length hEeq
          simp only [List.length_append, List.length_nil] at hlen
          omega
        | cons y ys =>
          obtain ⟨tl, hins0⟩ := eq_cons_of_take1 INS ' ' (by decide)
          rw [hins0] at hk2
          rw [pfx, Bool.and_eq_true, beq_iff_eq] at hk2
          have hyA : y ∈ ALTEQ := by
            rw [hEeq]
            simp
          rw [hk2.1] at hyA
          revert hyA
          decide
  rw [countOcc_append_left_free _ _ _ h]
  decide

/-! ## The fallback generator (`src/lib/fallback-mjml.js`) and the
multi-provider orchestrator (`src/lib/multi-ai.js`)

Design data is modelled with integer dimensions and `Option` for
JavaScript `undefined`/`null` fields.  JavaScript truthiness on strings
and numbers is explicit: the empty string and zero are falsy (`jsOrS` /
`jsOrI` model `x || default`).  Outbound provider calls
(`generateWithProvider`) are an oracle `env : String → Except String
ProvResult`; a thrown JavaScript exception is an `Except.error`. -/

/-- JavaScript `x || d` for an optional string (`undefined` and `""` are
falsy). -/
def jsOrS (o : Option String) (d : String) : String :=
  match o with
  | some s => if s == "" then d else s
  | none => d

/-- JavaScript `x || d` for an optional integer (`undefined` and `0` are
falsy). -/
def jsOrI (o : Option Int) (d : Int) : Int :=
  match o with
  | some v => if v == 0 then d else v
  | none => d

/-- JavaScript string interpolation of a possibly-`undefined` value. -/
def jsTemplate (o : Option String) : String :=
  match o with
  | some s => s
  | none => "undefined"

structure Bounds where
  x : Int
  y : Int
  width : Int
  height : Int
deriving DecidableEq, Repr

structure Element where
  type : String
  name : Option String
  visible : Option Bool
  bounds : Option Bounds
  text : Option String
  fontSize : Option Int
  fontWeight : Option Int
  textColor : Option String
  hasImage : Bool
  backgroundColor : Option String
deriving DecidableEq, Repr

structure Layout where
  name : String
  width : Int
  height : Int
  elements : List Element
  backgroundColor : Option String
deriving DecidableEq, Repr

structure LayoutData where
  fileName : String
  layouts : List Layout
deriving DecidableEq, Repr

structure TextElem where
  text : String
  fontSize : Int
  color : String
  weight : Int
deriving DecidableEq, Repr

structure Analysis where
  hasText : Bool
  hasImages : Bool
  hasButtons : Bool
  hasColoredSections : Bool
  textElements : List TextElem
  imageElements : List Element
  coloredElements : List Element
  layoutType : String
  primaryColors : List String
  aspectRatio : Rat
deriving DecidableEq, Repr

/-- One iteration of the `elements.forEach` switch in
`analyzeLayoutElements`. -/
def analyzeStep (acc : Analysis) (element : Element) : Analysis :=
  if element.type == "TEXT" then
    { acc with
      hasText := true
      textElements := acc.textElements ++
        [{ text := jsOrS element.text "Sample Text"
           fontSize := jsOrI element.fontSize 16
           color := jsOrS element.textColor "#333333"
           weight := jsOrI element.fontWeight 400 }] }
  else if element.type == "RECTANGLE" || element.type == "FRAME" then
    if element.hasImage then
      { acc with
        hasImages := true
        imageElements := acc.imageElements ++ [element] }
    else
      match element.backgroundColor with
      | some bg =>
        if bg != "" && bg != "transparent" then
          { acc with
            hasColoredSections := true
            coloredElements := acc.coloredElements ++ [element]
            primaryColors :=
              if acc.primaryColors.contains bg then acc.primaryColors
              else acc.primaryColors ++ [bg] }
        else acc
      | none => acc
  else acc

/-- `analyzeLayoutElements` from `multi-ai.js`: a fold of the switch over
the layout's elements (no visibility check appears in the source),
followed by the layout-type priority chain. -/
def analyzeLayoutElements (layout : Layout) : Analysis :=
  let base : Analysis :=
    { hasText := false
      hasImages := false
      hasButtons := false
      hasColoredSections := false
      textElements := []
      imageElements := []
      coloredElements := []
      layoutType := "unknown"
      primaryColors := []
      aspectRatio :=
        if layout.width != 0 && layout.height != 0 then
          (layout.width : Rat) / (layout.height : Rat)
        else 1 }
  let a := layout.elements.foldl analyzeStep base
  { a with
    layoutType :=
      if a.hasText && a.hasImages && a.hasColoredSections then "rich-content"
      else if a.hasText && a.hasColoredSections then "text-focused"
      else if a.hasImages then "image-focused"
      else "minimal" }

/-- `String.includes` of JavaScript. -/
def sIncludes (s sub : String) : Bool :=
  containsSub sub.toList s.toList

def getContrastColor (bgColor : String) : String :=
  if bgColor != "" &&
      (sIncludes bgColor "rgb(0, 0, 0)" || sIncludes bgColor "#000" ||
        bgColor == "black") then
    "white"
  else "#333333"

/-- One `<mj-text>` block of the intelligent template's text section. -/
def intelTextBlock (t : TextElem) : String :=
  "\n        <mj-text font-size=\"" ++ toString t.fontSize ++ "px\" color=\"" ++
    t.color ++ "\" font-weight=\"" ++
    (if t.weight > 500 then "600" else "400") ++ "\">\n          " ++ t.text ++
    "\n        </mj-text>"

/-- The `slice(0, 3).forEach` over text elements: a spacer follows each
block whose (slice) index is below the full list's length minus one. -/
def intelTextBlocks (fullLen : Nat) : Nat → List TextElem → String
  | _, [] => ""
  | i, t :: ts =>
    intelTextBlock t ++
      (if i < fullLen - 1 then "\n        <mj-spacer height=\"15px\" />" else "") ++
      intelTextBlocks fullLen (i + 1) ts

/-- `generateIntelligentMJML` from `multi-ai.js`, transcribed piecewise in
the order of the source's `mjml +=` statements. -/
def generateIntelligentMJML (analysis : Analysis) (fileName : String)
    (layout : Layout) : String :=
  let primaryColor :=
    match analysis.primaryColors.head? with
    | some c => if c == "" then "#007bff" else c
    | none => "#007bff"
  let textColor := getContrastColor primaryColor
  "<mjml>\n  <mj-head>\n    <mj-title>" ++ fileName ++ " - " ++ layout.name ++
    "</mj-title>\n    <mj-preview>Intelligent email template generated from " ++
    layout.name ++
    "</mj-preview>\n    <mj-attributes>\n      <mj-all font-family=\"\x27Poppins\x27, Arial, sans-serif\" />\n      <mj-text font-size=\"14px\" color=\"#333333\" line-height=\"1.6\" />\n      <mj-section background-color=\"#ffffff\" padding=\"20px\" />\n    </mj-attributes>\n    <mj-style inline=\"inline\">\n      .header \x7b background-color: " ++
    primaryColor ++ "; \x7d\n      .primary-color \x7b color: " ++ primaryColor ++
    "; \x7d\n      .rounded \x7b border-radius: 8px; padding: 15px; background-color: #f8f9fa; \x7d\n      @media only screen and (max-width: 480px) \x7b\n        .mobile-center \x7b text-align: center !important; \x7d\n      \x7d\n    </mj-style>\n  </mj-head>\n  <mj-body>" ++
    ("\n    <mj-section css-class=\"header\" padding=\"30px 20px\">\n      <mj-column>\n        <mj-text align=\"center\" font-size=\"28px\" font-weight=\"600\" color=\"" ++
      textColor ++ "\">\n          " ++
      (if layout.name == "" then "Your Email Template" else layout.name) ++
      "\n        </mj-text>") ++
    (if analysis.layoutType == "rich-content" then
      "\n        <mj-text align=\"center\" font-size=\"16px\" color=\"" ++
        textColor ++ "\" padding-top=\"10px\">\n          🎨 Rich content email with " ++
        toString analysis.textElements.length ++
        " text sections\n        </mj-text>"
    else "") ++
    "\n      </mj-column>\n    </mj-section>" ++
    "\n    <mj-section padding=\"40px 20px\">\n      <mj-column>" ++
    (if analysis.hasText && decide (0 < analysis.textElements.length) then
      intelTextBlocks analysis.textElements.length 0 (analysis.textElements.take 3)
    else "") ++
    (if analysis.hasColoredSections then
      "\n        <mj-spacer height=\"30px\" />\n        <mj-text css-class=\"rounded\">\n          🎨 <strong>Design Elements Found:</strong><br/>\n          • " ++
        toString analysis.coloredElements.length ++
        " colored sections<br/>\n          • Primary colors: " ++
        String.intercalate ", " (analysis.primaryColors.take 2) ++
        "<br/>\n          • Layout type: " ++ analysis.layoutType ++
        "\n        </mj-text>"
    else "") ++
    (if analysis.hasImages then
      "\n        <mj-spacer height=\"20px\" />\n        <mj-image src=\"https://via.placeholder.com/600x300/f8f9fa/333333?text=Image+Placeholder\" alt=\"Content Image\" width=\"100%\" />"
    else "") ++
    ("\n        <mj-spacer height=\"30px\" />\n        <mj-button background-color=\"" ++
      primaryColor ++ "\" color=\"" ++ textColor ++
      "\" border-radius=\"6px\" font-weight=\"500\" padding=\"12px 30px\">\n          Get Started\n        </mj-button>\n        \n        <mj-spacer height=\"20px\" />\n        \n        <mj-text align=\"center\" font-size=\"12px\" color=\"#666666\">\n          💡 <strong>Template Info:</strong> Generated from " ++
      fileName ++ " (" ++ toString layout.width ++ "×" ++
      toString layout.height ++ "px)<br/>\n          Layout type: " ++
      analysis.layoutType ++ " | Elements: " ++
      toString layout.elements.length ++
      "\n        </mj-text>\n      </mj-column>\n    </mj-section>") ++
    "\n    <mj-section padding=\"10px 20px\">\n      <mj-column>\n        <mj-divider border-color=\"#e9ecef\" />\n      </mj-column>\n    </mj-section>\n    <mj-section padding=\"20px\">\n      <mj-column>\n        <mj-text align=\"center\" font-size=\"12px\" color=\"#999999\">\n          Generated with 🧠 <strong>Intelligent Fallback System</strong><br/>\n          No AI quota needed • Always available • Smart analysis\n        </mj-text>\n      </mj-column>\n    </mj-section>\n  </mj-body>\n</mjml>"

structure FallbackResult where
  success : Bool
  mjml : String
  aiUsed : Bool
  analysis : Analysis
  model : String
deriving DecidableEq, Repr

/-- `generateEnhancedFallbackMJML`: reads `layouts[0]`; with an empty
`layouts` the destructuring inside `analyzeLayoutElements(undefined)`
throws a `TypeError`, modelled as an `Except.error`. -/
def generateEnhancedFallbackMJML (layoutData : LayoutData) :
    Except String FallbackResult :=
  match layoutData.layouts with
  | [] => .error "TypeError: cannot destructure properties of undefined"
  | primaryLayout :: _ =>
    let analysis := analyzeLayoutElements primaryLayout
    .ok
      { success := true
        mjml := generateIntelligentMJML analysis layoutData.fileName primaryLayout
        aiUsed := false
        analysis := analysis
        model := "intelligent-fallback" }

/-! ### The provider orchestrator (`generateMJMLWithFallback`) -/

/-- Result of a `generateWithProvider` call that returned. -/
structure ProvResult where
  success : Bool
  mjml : String
deriving DecidableEq, Repr

/-- One `{ provider, error: error.message }` entry pushed into `errors`. -/
structure AttemptError where
  provider : String
  error : String
deriving DecidableEq, Repr

/-- The orchestrator's return value.  `aiErrors = none` models the absence
of the `aiErrors` field on the object returned from inside the loop. -/
structure OrchResult where
  success : Bool
  mjml : String
  provider : String
  usedFallback : Bool
  aiErrors : Option (List AttemptError)
deriving DecidableEq, Repr

/-- The `for (const provider of providers)` loop of
`generateMJMLWithFallback`, with the accumulated `errors` array explicit
and an invocation trace (the providers actually called, in order)
recorded alongside the result. -/
def orchGo (env : String → Except String ProvResult) (layoutData : LayoutData) :
    List String → List AttemptError → Except String OrchResult × List String
  | [], errs =>
    match generateEnhancedFallbackMJML layoutData with
    | .ok fr =>
      (.ok
        { success := fr.success
          mjml := fr.mjml
          provider := "enhanced-fallback"
          usedFallback := true
          aiErrors := some errs }, ["enhanced-fallback"])
    | .error e => (.error e, ["enhanced-fallback"])
  | p :: ps, errs =>
    if p == "enhanced-fallback" then
      match generateEnhancedFallbackMJML layoutData with
      | .ok fr =>
        (.ok
          { success := fr.success
            mjml := fr.mjml
            provider := "enhanced-fallback"
            usedFallback := true
            aiErrors := none }, ["enhanced-fallback"])
      | .error e =>
        let r := orchGo env layoutData ps (errs ++ [⟨"enhanced-fallback", e⟩])
        (r.1, "enhanced-fallback" :: r.2)
    else
      match env p with
      | .ok res =>
        if res.success then
          (.ok
            { success := res.success
              mjml := res.mjml
              provider := p
              usedFallback := false
              aiErrors := none }, [p])
        else
          let r := orchGo env layoutData ps errs
          (r.1, p :: r.2)
      | .error e =>
        let r := orchGo env layoutData ps (errs ++ [⟨p, e⟩])
        (r.1, p :: r.2)

/-- `generateMJMLWithFallback(layoutData, providers)` with the provider
adapters abstracted as `env`. -/
def generateMJMLWithFallback (env : String → Except String ProvResult)
    (layoutData : LayoutData) (providers : List String) :
    Except String OrchResult × List String :=
  orchGo env layoutData providers []

/-- The default provider list, as passed by `generateMJMLFromLayout` in
`src/lib/ai.js` and as defaulted in `generateMJMLWithFallback`. -/
def defaultProviders : List String :=
  ["openai", "groq", "cohere", "enhanced-fallback"]

/-! ### The basic layout-based element generator (`fallback-mjml.js`) -/

def generateTextElement (element : Element) : String :=
  let fontSize := jsOrI element.fontSize 14
  let color := jsOrS element.textColor "#333333"
  let fontWeight :=
    if (match element.fontWeight with | some w => decide (w > 500) | none => false) then
      "bold"
    else "normal"
  "\n        <mj-text font-size=\"" ++ toString fontSize ++ "px\" color=\"" ++
    color ++ "\" font-weight=\"" ++ fontWeight ++ "\">" ++
    "\n          " ++ jsOrS element.text "Text content" ++
    "\n        </mj-text>"

def generateImageElement (element : Element) : String :=
  let width :=
    match element.bounds with
    | some b => toString b.width ++ "px"
    | none => "100%"
  let alt := "Image: " ++ jsOrS element.name "Untitled"
  "\n        <mj-image width=\"" ++ width ++ "\" alt=\"" ++ alt ++
    "\" src=\"https://via.placeholder.com/" ++
    toString (match element.bounds with
      | some b => if b.width == 0 then 600 else b.width
      | none => 600) ++ "x" ++
    toString (match element.bounds with
      | some b => if b.height == 0 then 300 else b.height
      | none => 300) ++
    "/f8f9fa/333333?text=Image+Placeholder\" />"

def generateBoxElement (element : Element) : String :=
  let bgColor := jsOrS element.backgroundColor "transparent"
  let height : Int :=
    match element.bounds with
    | some b => if b.height == 0 then 50 else b.height
    | none => 50
  if bgColor != "transparent" && bgColor != "rgba(0, 0, 0, 0)" then
    "\n        <mj-divider border-color=\"" ++ bgColor ++
      "\" border-width=\"" ++ toString (max height 2) ++
      "px\" padding=\"5px 0\" />"
  else
    "\n        <mj-spacer height=\"" ++ toString height ++ "px\" />"

/-- The `visible !== false` filter predicate. -/
def visOK (el : Element) : Bool := el.visible != some false

/-- The sort comparator `(a, b) => { if (!a.bounds || !b.bounds) return 0;
return a.bounds.y - b.bounds.y; }`, as a boolean \"keeps order\" test:
`sortLe a b` is true when the comparator yields a value ≤ 0. -/
def sortLe (a b : Element) : Bool :=
  match a.bounds, b.bounds with
  | some ba, some bb => ba.y ≤ bb.y
  | _, _ => true

/-- Stable insertion used to model the (stable) JavaScript sort. -/
def insertLe (e : Element) : List Element → List Element
  | [] => [e]
  | x :: xs => if sortLe x e then x :: insertLe e xs else e :: x :: xs

/-- A stable sort by the comparator: each element is inserted after all
earlier elements the comparator does not place strictly after it. -/
def sortByY (l : List Element) : List Element :=
  l.foldl (fun acc e => insertLe e acc) []

/-- The per-element `switch` of `generateElementsFromLayout`. -/
def renderElement (element : Element) : String :=
  if element.type == "TEXT" then generateTextElement element
  else if element.type == "RECTANGLE" || element.type == "FRAME" then
    (if element.hasImage then generateImageElement element
     else generateBoxElement element)
  else
    "\n        <mj-text font-size=\"14px\" color=\"#666666\">\n          [" ++
      element.type ++ ": " ++ jsTemplate element.name ++
      "]\n        </mj-text>"

/-- The `forEach` over the sorted elements, with the between-element
spacer gated on `index < sortedElements.length - 1`. -/
def elemsGo (fullLen : Nat) : Nat → List Element → String
  | _, [] => ""
  | i, e :: es =>
    renderElement e ++
      (if i < fullLen - 1 then "\n        <mj-spacer height=\"15px\" />" else "") ++
      elemsGo fullLen (i + 1) es

/-- `generateElementsFromLayout`: filter invisible elements, sort by
vertical position, render each with spacing. -/
def generateElementsFromLayout (elements : List Element) : String :=
  let sortedElements := sortByY (elements.filter visOK)
  elemsGo sortedElements.length 0 sortedElements

/-! ### Orchestrator and synthesizer lemmas -/

theorem generateIntelligentMJML_ne_empty (analysis : Analysis)
    (fileName : String) (layout : Layout) :
    generateIntelligentMJML analysis fileName layout ≠ "" := by
  intro h
  have hl := congrArg String.length h
  rw [generateIntelligentMJML] at hl
  simp only [String.length_append] at hl
  have h1 : 0 < ("<mjml>\n  <mj-head>\n    <mj-title>" : String).length := by
    decide
  have h0 : ("" : String).length = 0 := rfl
  omega

theorem enhancedFallback_ok (ld : LayoutData) (l : Layout) (ls : List Layout)
    (hL : ld.layouts = l :: ls) :
    generateEnhancedFallbackMJML ld = .ok
      { success := true
        mjml := generateIntelligentMJML (analyzeLayoutElements l) ld.fileName l
        aiUsed := false
        analysis := analyzeLayoutElements l
        model := "intelligent-fallback" } := by
  rw [generateEnhancedFallbackMJML, hL]

/-- If no provider in the list returns a successful result, the
orchestrator lands on the enhanced fallback (in the loop or after it)
and, provided the layout list is non-empty, returns a fallback result
with a non-empty document. -/
theorem orchGo_fallback (env : String → Except String ProvResult)
    (ld : LayoutData) (l : Layout) (ls : List Layout)
    (hL : ld.layouts = l :: ls) :
    ∀ (providers : List String) (errs : List AttemptError),
      (∀ p ∈ providers, p ≠ "enhanced-fallback" →
        ∀ r, env p = .ok r → r.success = false) →
      ∃ res : OrchResult, (orchGo env ld providers errs).1 = .ok res ∧
        res.usedFallback = true ∧ res.mjml ≠ "" ∧
        res.provider = "enhanced-fallback" := by
  intro providers
  induction providers with
  | nil =>
    intro errs _
    have hek := enhancedFallback_ok ld l ls hL
    refine ⟨{ success := true
              mjml := generateIntelligentMJML (analyzeLayoutElements l) ld.fileName l
              provider := "enhanced-fallback"
              usedFallback := true
              aiErrors := some errs }, ?_, rfl,
      generateIntelligentMJML_ne_empty _ _ _, rfl⟩
    simp only [orchGo, hek]
  | cons p ps ih =>
    intro errs hfail
    by_cases hp : p = "enhanced-fallback"
    · subst hp
      have hek := enhancedFallback_ok ld l ls hL
      refine ⟨{ success := true
                mjml := generateIntelligentMJML (analyzeLayoutElements l) ld.fileName l
                provider := "enhanced-fallback"
                usedFallback := true
                aiErrors := none }, ?_, rfl,
        generateIntelligentMJML_ne_empty _ _ _, rfl⟩
      simp only [orchGo, beq_self_eq_true, if_true, hek]
    · have hne : (p == "enhanced-fallback") = false := by
        simp [hp]
      have hfps : ∀ q ∈ ps, q ≠ "enhanced-fallback" →
          ∀ r, env q = .ok r → r.success = false :=
        fun q hq => hfail q (List.mem_cons_of_mem _ hq)
      cases henv : env p with
      | ok r =>
        have hrf : r.success = false :=
          hfail p (List.mem_cons_self _ _) hp r henv
        obtain ⟨res, h1, h2, h3, h4⟩ := ih errs hfps
        refine ⟨res, ?_, h2, h3, h4⟩
        simp only [orchGo, hne, henv, hrf]
        simpa using h1
      | error e =>
        obtain ⟨res, h1, h2, h3, h4⟩ := ih (errs ++ [⟨p, e⟩]) hfps
        refine ⟨res, ?_, h2, h3, h4⟩
        simp only [orchGo, hne, henv]
        simpa using h1

/-! ## Sample data used by witnesses and counterexamples -/

def sampleLayout : Layout :=
  { name := "Frame"
    width := 600
    height := 800
    elements := []
    backgroundColor := none }

def sampleLD : LayoutData :=
  { fileName := "design.fig", layouts := [sampleLayout] }

def envAllFail : String → Except String ProvResult :=
  fun _ => .error "missing credentials"

def envC3 : String → Except String ProvResult := fun p =>
  if p == "groq" then .ok { success := true, mjml := "<mjml>ok</mjml>" }
  else if p == "cohere" then .ok { success := true, mjml := "<mjml>c</mjml>" }
  else .error "no key"

def invisTextEl : Element :=
  { type := "TEXT"
    name := some "secret"
    visible := some false
    bounds := none
    text := some "hidden words"
    fontSize := some 12
    fontWeight := some 400
    textColor := some "#111111"
    hasImage := false
    backgroundColor := none }

def L9 : Layout :=
  { name := "L"
    width := 600
    height := 400
    elements := [invisTextEl]
    backgroundColor := none }

def richSample : Layout :=
  { name := "R"
    width := 600
    height := 400
    elements :=
      [{ type := "TEXT", name := none, visible := none, bounds := none,
         text := some "hello", fontSize := some 16, fontWeight := none,
         textColor := none, hasImage := false, backgroundColor := none },
       { type := "RECTANGLE", name := none, visible := none, bounds := none,
         text := none, fontSize := none, fontWeight := none, textColor := none,
         hasImage := true, backgroundColor := none },
       { type := "RECTANGLE", name := none, visible := none, bounds := none,
         text := none, fontSize := none, fontWeight := none, textColor := none,
         hasImage := false, backgroundColor := some "#ff0000" }]
    backgroundColor := none }

def X0 : List Char :=
  "<mj-text border-radius=\"5px\" border-radius=\"6px\">".toList

def X7 : List Char :=
  "<mj-text border-radius=\"padding=\"20px 10px\">".toList

def sampleDoc : List (List Char × List Char) :=
  [(" text ".toList, " src=\"a.png\"".toList),
   ("mid".toList, " alt=\"x\" src=\"b.png\"".toList)]

def sampleTl : List Char := " end".toList

/-! ## The claims -/

/-- C1: for every layout-data input with at least one layout and every
ordered provider list, if no named provider produces a successful result
then `generateMJMLWithFallback` returns (rather than throwing) a result
with `usedFallback = true` and a non-empty `mjml` document. -/
theorem C1_terminal_fallback (env : String → Except String ProvResult)
    (ld : LayoutData) (providers : List String)
    (hld : ld.layouts ≠ [])
    (hfail : ∀ p ∈ providers, p ≠ "enhanced-fallback" →
      ∀ r, env p = .ok r → r.success = false) :
    ∃ res : OrchResult,
      (generateMJMLWithFallback env ld providers).1 = .ok res ∧
      res.usedFallback = true ∧ res.mjml ≠ "" := by
  cases hL : ld.layouts with
  | nil => exact absurd hL hld
  | cons l ls =>
    obtain ⟨res, h1, h2, h3, -⟩ :=
      orchGo_fallback env ld l ls hL providers [] hfail
    exact ⟨res, h1, h2, h3⟩

theorem C1_terminal_fallback_witness :
    sampleLD.layouts ≠ [] ∧
    ∃ res : OrchResult,
      (generateMJMLWithFallback envAllFail sampleLD ["openai", "bogus"]).1 =
        .ok res ∧
      res.usedFallback = true ∧ res.mjml ≠ "" :=
  ⟨by decide,
    C1_terminal_fallback envAllFail sampleLD ["openai", "bogus"] (by decide)
      (fun p _ _ r hr => by simp [envAllFail] at hr)⟩

/-- C2: the rule-based synthesizer is total and productive — for every
layout (empty elements, boundary dimensions, missing background colour
included) the enhanced fallback returns a non-empty document and never
raises. -/
theorem C2_synthesis_total (l : Layout) (fileName : String) :
    ∃ fr : FallbackResult,
      generateEnhancedFallbackMJML { fileName := fileName, layouts := [l] } =
        .ok fr ∧ fr.mjml ≠ "" :=
  ⟨_, enhancedFallback_ok _ l [] rfl, generateIntelligentMJML_ne_empty _ _ _⟩

/-- C3: first-success-wins — with providers `[A, B, C]` where `A` throws,
`B` succeeds and `C` would succeed, the orchestrator returns `B`'s result
with `usedFallback = false` and the invocation trace is `[A, B]`: `C` is
never invoked. -/
theorem C3_first_success_wins (env : String → Except String ProvResult)
    (ld : LayoutData) (A B C eA : String) (rB rC : ProvResult)
    (hA : A ≠ "enhanced-fallback") (hB : B ≠ "enhanced-fallback")
    (henvA : env A = .error eA)
    (henvB : env B = .ok rB) (hrB : rB.success = true)
    (henvC : env C = .ok rC) (hrC : rC.success = true)
    (hCA : C ≠ A) (hCB : C ≠ B) :
    (generateMJMLWithFallback env ld [A, B, C]).1 =
      .ok { success := true, mjml := rB.mjml, provider := B,
            usedFallback := false, aiErrors := none } ∧
    (generateMJMLWithFallback env ld [A, B, C]).2 = [A, B] ∧
    C ∉ (generateMJMLWithFallback env ld [A, B, C]).2 := by
  have hAne : (A == "enhanced-fallback") = false := by simp [hA]
  have hBne : (B == "enhanced-fallback") = false := by simp [hB]
  have htr : generateMJMLWithFallback env ld [A, B, C] =
      (.ok { success := true, mjml := rB.mjml, provider := B,
             usedFallback := false, aiErrors := none }, [A, B]) := by
    simp [generateMJMLWithFallback, orchGo, hAne, hBne, henvA, henvB, hrB]
  refine ⟨by rw [htr], by rw [htr], ?_⟩
  rw [htr]
  simp [hCA, hCB]

theorem C3_first_success_wins_witness :
    envC3 "openai" = .error "no key" ∧
    envC3 "groq" = .ok { success := true, mjml := "<mjml>ok</mjml>" } ∧
    (generateMJMLWithFallback envC3 sampleLD ["openai", "groq", "cohere"]).1 =
      .ok { success := true, mjml := "<mjml>ok</mjml>", provider := "groq",
            usedFallback := false, aiErrors := none } ∧
    (generateMJMLWithFallback envC3 sampleLD ["openai", "groq", "cohere"]).2 =
      ["openai", "groq"] ∧
    "cohere" ∉ (generateMJMLWithFallback envC3 sampleLD
      ["openai", "groq", "cohere"]).2 := by
  have h := C3_first_success_wins envC3 sampleLD "openai" "groq" "cohere"
    "no key" { success := true, mjml := "<mjml>ok</mjml>" }
    { success := true, mjml := "<mjml>c</mjml>" }
    (by decide) (by decide) rfl rfl rfl rfl rfl
    (by decide) (by decide)
  exact ⟨rfl, rfl, h.1, h.2.1, h.2.2⟩

/-- A text with no border-radius, padding or alt match anywhere passes
through `validateAndCorrectMJML` unchanged and without warnings (errors
may still be detected, but the text and warning list are untouched). -/
theorem validate_silent (y : List Char)
    (hnb : noOccScan borderMatchAt y = true)
    (hnp : ∀ i, padMatchAt (y.drop i) = none)
    (hna : ∀ i, altMatchAt (y.drop i) = none) :
    (validateAndCorrectMJML y).correctedMjml = y ∧
    (validateAndCorrectMJML y).warnings = [] := by
  have hbp := borderPass_noOcc y y.length hnb
  have hpp := padPass_noOcc y y.length
    ((noOccScan_iff padMatchAt padMatchAt_nil y).mpr hnp)
  have hap := altPass_noOcc y y.length
    ((noOccScan_iff altMatchAt altMatchAt_nil y).mpr hna)
  constructor <;>
    simp [validateAndCorrectMJML, fixInvalidAttributes, fixStructuralIssues,
      addRequiredAttributes, hbp, hpp, hap]

/-- C4 counterexample: on a text carrying two `border-radius` attributes
on one `mj-text` tag, the second validator pass still rewrites and still
warns — the correction pass is not idempotent. -/
theorem C4_counterexample :
    (validateAndCorrectMJML
      ((validateAndCorrectMJML X0).correctedMjml)).warnings ≠ [] ∧
    (validateAndCorrectMJML
        ((validateAndCorrectMJML X0).correctedMjml)).correctedMjml ≠
      (validateAndCorrectMJML X0).correctedMjml := by
  decide

/-- C4 (amended): the padding and alt passes are exhausted by a single
run, so the second pass is silent and is the identity on the corrected
text whenever the first pass's output contains no border-radius match;
all non-idempotence originates in the border-radius removal, which
deletes only one `border-radius` attribute per matched tag per pass. -/
theorem C4_amended (x : List Char)
    (hb : noOccScan borderMatchAt
      ((validateAndCorrectMJML x).correctedMjml) = true) :
    (validateAndCorrectMJML
        ((validateAndCorrectMJML x).correctedMjml)).correctedMjml =
      (validateAndCorrectMJML x).correctedMjml ∧
    (validateAndCorrectMJML
      ((validateAndCorrectMJML x).correctedMjml)).warnings = [] := by
  have hy : (validateAndCorrectMJML x).correctedMjml =
      (scanGo altStep
        ((scanGo padStep ((scanGo borderStep x.length x).1.length)
          ((scanGo borderStep x.length x).1)).1.length)
        ((scanGo padStep ((scanGo borderStep x.length x).1.length)
          ((scanGo borderStep x.length x).1)).1)).1 := rfl
  have hnp : ∀ i, padMatchAt
      (((validateAndCorrectMJML x).correctedMjml).drop i) = none := by
    rw [hy]
    exact altScan_preserves_noPad _ _ (le_refl _)
      (padScan_no_match _ _ (le_refl _))
  have hna : ∀ i, altMatchAt
      (((validateAndCorrectMJML x).correctedMjml).drop i) = none := by
    rw [hy]
    exact altScan_no_match _ _ (le_refl _)
  exact validate_silent _ hb hnp hna

theorem C4_amended_witness :
    noOccScan borderMatchAt
      ((validateAndCorrectMJML "ok".toList).correctedMjml) = true ∧
    ((validateAndCorrectMJML
        ((validateAndCorrectMJML "ok".toList).correctedMjml)).correctedMjml =
      (validateAndCorrectMJML "ok".toList).correctedMjml ∧
    (validateAndCorrectMJML
      ((validateAndCorrectMJML "ok".toList).correctedMjml)).warnings = []) :=
  ⟨by decide, C4_amended "ok".toList (by decide)⟩

/-- C5 counterexample: with the default provider list and every AI
provider failing, the result has `usedFallback = true` but carries no
`aiErrors` field at all (`none`) — not a three-entry error list: the
in-loop enhanced-fallback return omits the accumulated errors. -/
theorem C5_counterexample :
    ((generateMJMLWithFallback envAllFail sampleLD defaultProviders).1).map
        (fun res => (res.usedFallback, res.aiErrors)) =
      .ok (true, none) := by
  rfl

/-- C5 (amended): when the three configured AI providers throw, three
`{provider, error}` pairs are accumulated, but they are attached to the
result only by the post-loop return (provider list without
`enhanced-fallback`); with the default list the in-loop
`enhanced-fallback` return has `usedFallback = true` and no `aiErrors`
field. -/
theorem C5_amended (env : String → Except String ProvResult) (ld : LayoutData)
    (l : Layout) (ls : List Layout) (hL : ld.layouts = l :: ls)
    (e1 e2 e3 : String)
    (h1 : env "openai" = .error e1) (h2 : env "groq" = .error e2)
    (h3 : env "cohere" = .error e3) :
    (∃ res : OrchResult,
      (generateMJMLWithFallback env ld defaultProviders).1 = .ok res ∧
      res.usedFallback = true ∧ res.aiErrors = none) ∧
    (∃ res : OrchResult,
      (generateMJMLWithFallback env ld ["openai", "groq", "cohere"]).1 =
        .ok res ∧
      res.usedFallback = true ∧
      res.aiErrors = some [⟨"openai", e1⟩, ⟨"groq", e2⟩, ⟨"cohere", e3⟩]) := by
  have hek := enhancedFallback_ok ld l ls hL
  constructor
  · refine ⟨{ success := true
              mjml := generateIntelligentMJML (analyzeLayoutElements l)
                ld.fileName l
              provider := "enhanced-fallback"
              usedFallback := true
              aiErrors := none }, ?_, rfl, rfl⟩
    simp [generateMJMLWithFallback, defaultProviders, orchGo, h1, h2, h3, hek]
  · refine ⟨{ success := true
              mjml := generateIntelligentMJML (analyzeLayoutElements l)
                ld.fileName l
              provider := "enhanced-fallback"
              usedFallback := true
              aiErrors := some [⟨"openai", e1⟩, ⟨"groq", e2⟩, ⟨"cohere", e3⟩] },
      ?_, rfl, rfl⟩
    simp [generateMJMLWithFallback, orchGo, h1, h2, h3, hek]

theorem C5_amended_witness :
    sampleLD.layouts = sampleLayout :: [] ∧
    ((∃ res : OrchResult,
      (generateMJMLWithFallback envAllFail sampleLD defaultProviders).1 =
        .ok res ∧
      res.usedFallback = true ∧ res.aiErrors = none) ∧
    (∃ res : OrchResult,
      (generateMJMLWithFallback envAllFail sampleLD
        ["openai", "groq", "cohere"]).1 = .ok res ∧
      res.usedFallback = true ∧
      res.aiErrors = some [⟨"openai", "missing credentials"⟩,
        ⟨"groq", "missing credentials"⟩, ⟨"cohere", "missing credentials"⟩])) :=
  ⟨rfl, C5_amended envAllFail sampleLD sampleLayout [] rfl
    "missing credentials" "missing credentials" "missing credentials"
    rfl rfl rfl⟩

/-- C6: the layout classification of `analyzeLayoutElements` follows the
fixed priority chain rich-content, then text-focused, then image-focused,
then minimal; in particular a layout whose profile has text, images and
coloured sections all present classifies as rich-content. -/
theorem C6_layout_type_priority (layout : Layout) :
    (analyzeLayoutElements layout).layoutType =
      (if (analyzeLayoutElements layout).hasText &&
          (analyzeLayoutElements layout).hasImages &&
          (analyzeLayoutElements layout).hasColoredSections then "rich-content"
       else if (analyzeLayoutElements layout).hasText &&
          (analyzeLayoutElements layout).hasColoredSections then "text-focused"
       else if (analyzeLayoutElements layout).hasImages then "image-focused"
       else "minimal") ∧
    (analyzeLayoutElements richSample).hasText = true ∧
    (analyzeLayoutElements richSample).hasImages = true ∧
    (analyzeLayoutElements richSample).hasColoredSections = true ∧
    (analyzeLayoutElements richSample).layoutType = "rich-content" := by
  refine ⟨?_, by decide, by decide, by decide, by decide⟩
  simp [analyzeLayoutElements]

/-- C7 counterexample: an input containing `padding="20px 10px"` (inside
a `border-radius` value) for which the validator's output has no
four-per-side rewrite and no padding-format warning — the earlier
border-radius removal destroys the shorthand occurrence before the
padding pass runs. -/
theorem C7_counterexample :
    containsSub P20 X7 = true ∧
    containsSub FOUR (validateAndCorrectMJML X7).correctedMjml = false ∧
    (validateAndCorrectMJML X7).warnings.filter
      (fun i => i.type == "padding-format") = [] := by
  decide

/-- C7 (amended): on any input with no border-radius match, every
occurrence of `padding="20px 10px"` is rewritten — the validator's output
contains the four per-side attributes, no two-value shorthand padding
match remains anywhere, and a padding-format warning is recorded.  (The
border-radius restriction is necessary, as C7's counterexample shows.) -/
theorem C7_amended (s : List Char)
    (hocc : containsSub P20 s = true)
    (hb : noOccScan borderMatchAt s = true) :
    containsSub FOUR (validateAndCorrectMJML s).correctedMjml = true ∧
    (∀ i, padMatchAt ((validateAndCorrectMJML s).correctedMjml.drop i) = none) ∧
    ∃ iss ∈ (validateAndCorrectMJML s).warnings, iss.type = "padding-format" := by
  have hbp := borderPass_noOcc s s.length hb
  have hcm : (validateAndCorrectMJML s).correctedMjml =
      (scanGo altStep ((scanGo padStep s.length s).1.length)
        ((scanGo padStep s.length s).1)).1 := by
    simp [validateAndCorrectMJML, fixInvalidAttributes, fixStructuralIssues,
      addRequiredAttributes, hbp]
  have hw : (validateAndCorrectMJML s).warnings =
      (scanGo padStep s.length s).2 ++
        (scanGo altStep ((scanGo padStep s.length s).1.length)
          ((scanGo padStep s.length s).1)).2 := by
    simp [validateAndCorrectMJML, fixInvalidAttributes, fixStructuralIssues,
      addRequiredAttributes, hbp]
  obtain ⟨hF, iss, hiss, hty⟩ := padScan_rewrites s.length s (le_refl _) hocc
  refine ⟨?_, ?_, ?_⟩
  · rw [hcm]
    exact altScan_preserves_occ _ _ FOUR (le_refl _) (by decide) hF
  · intro i
    rw [hcm]
    exact altScan_preserves_noPad _ _ (le_refl _)
      (padScan_no_match s.length s (le_refl _)) i
  · refine ⟨iss, ?_, hty⟩
    rw [hw]
    exact List.mem_append.mpr (Or.inl hiss)

theorem C7_amended_witness :
    containsSub P20 P20 = true ∧ noOccScan borderMatchAt P20 = true ∧
    (containsSub FOUR (validateAndCorrectMJML P20).correctedMjml = true ∧
    (∀ i, padMatchAt ((validateAndCorrectMJML P20).correctedMjml.drop i) = none) ∧
    ∃ iss ∈ (validateAndCorrectMJML P20).warnings,
      iss.type = "padding-format") :=
  ⟨by decide, by decide, C7_amended P20 (by decide) (by decide)⟩

/-- C8: on a well-formed image document, each `mj-image` tag lacking
`alt=` in its attribute run gains exactly one ` alt="Image"` (placed
before its closing `>`), with one warning per such tag, and each tag
already carrying `alt=` — and all surrounding text — is reproduced
byte-for-byte (`fixImgDoc` inserts nothing for it); the extended
attribute run of a fixed tag contains exactly one `alt=` occurrence. -/
theorem C8_alt_injection (doc : List (List Char × List Char)) (tl : List Char)
    (hok : imgDocOK doc tl) :
    addRequiredAttributes (renderImgDoc doc tl) =
      (fixImgDoc doc tl, List.replicate (countNoAlt doc) altIssue) ∧
    ∀ p ∈ doc, containsSub ALTEQ p.2 = false →
      countOcc ALTEQ (p.2 ++ INS) = 1 := by
  refine ⟨?_, fun p _ hno => alt_ins_once p.2 hno⟩
  rw [addRequiredAttributes]
  exact altScan_doc doc tl (renderImgDoc doc tl).length hok (le_refl _)

theorem C8_alt_injection_witness :
    imgDocOK sampleDoc sampleTl ∧
    (addRequiredAttributes (renderImgDoc sampleDoc sampleTl) =
      (fixImgDoc sampleDoc sampleTl,
        List.replicate (countNoAlt sampleDoc) altIssue) ∧
    ∀ p ∈ sampleDoc, containsSub ALTEQ p.2 = false →
      countOcc ALTEQ (p.2 ++ INS) = 1) :=
  ⟨by decide, C8_alt_injection sampleDoc sampleTl (by decide)⟩

/-- C9 counterexample: an element with `visible = false` is not excluded
from the intelligent fallback's analysis — a single invisible TEXT
element turns `hasText` on and lands in `textElements` (while the basic
layout-based generator does drop it). -/
theorem C9_counterexample :
    invisTextEl.visible = some false ∧
    (analyzeLayoutElements L9).hasText = true ∧
    (analyzeLayoutElements L9).textElements ≠ [] ∧
    generateElementsFromLayout [invisTextEl] = "" := by
  decide

/-- C9 (amended): elements with `visible = false` are excluded from the
basic layout-based generator entirely (deleting such an element leaves
its output unchanged), but `analyzeLayoutElements` never consults
visibility: its per-element step treats any element exactly as it treats
the same element marked visible. -/
theorem C9_amended (els1 els2 : List Element) (el : Element)
    (acc : Analysis) (e : Element)
    (hvis : el.visible = some false) :
    generateElementsFromLayout (els1 ++ el :: els2) =
      generateElementsFromLayout (els1 ++ els2) ∧
    ((analyzeStep acc e).hasText =
        (analyzeStep acc { e with visible := some true }).hasText ∧
      (analyzeStep acc e).hasImages =
        (analyzeStep acc { e with visible := some true }).hasImages ∧
      (analyzeStep acc e).hasColoredSections =
        (analyzeStep acc { e with visible := some true }).hasColoredSections ∧
      (analyzeStep acc e).textElements =
        (analyzeStep acc { e with visible := some true }).textElements ∧
      (analyzeStep acc e).primaryColors =
        (analyzeStep acc { e with visible := some true }).primaryColors) := by
  constructor
  · have hv : visOK el = false := by
      simp [visOK, hvis]
    have hfil : (els1 ++ el :: els2).filter visOK =
        (els1 ++ els2).filter visOK := by
      simp [List.filter_append, List.filter_cons, hv]
    simp only [generateElementsFromLayout, hfil]
  · cases e
    dsimp only [analyzeStep]
    refine ⟨?_, ?_, ?_, ?_, ?_⟩ <;> (repeat' split) <;> rfl

theorem C9_amended_witness :
    invisTextEl.visible = some false ∧
    (generateElementsFromLayout ([] ++ invisTextEl :: []) =
      generateElementsFromLayout ([] ++ []) ∧
    ((analyzeStep (analyzeLayoutElements sampleLayout) invisTextEl).hasText =
        (analyzeStep (analyzeLayoutElements sampleLayout)
          { invisTextEl with visible := some true }).hasText ∧
      (analyzeStep (analyzeLayoutElements sampleLayout) invisTextEl).hasImages =
        (analyzeStep (analyzeLayoutElements sampleLayout)
          { invisTextEl with visible := some true }).hasImages ∧
      (analyzeStep (analyzeLayoutElements sampleLayout)
          invisTextEl).hasColoredSections =
        (analyzeStep (analyzeLayoutElements sampleLayout)
          { invisTextEl with visible := some true }).hasColoredSections ∧
      (analyzeStep (analyzeLayoutElements sampleLayout)
          invisTextEl).textElements =
        (analyzeStep (analyzeLayoutElements sampleLayout)
          { invisTextEl with visible := some true }).textElements ∧
      (analyzeStep (analyzeLayoutElements sampleLayout)
          invisTextEl).primaryColors =
        (analyzeStep (analyzeLayoutElements sampleLayout)
          { invisTextEl with visible := some true }).primaryColors)) :=
  ⟨rfl, C9_amended [] [] invisTextEl (analyzeLayoutElements sampleLayout)
    invisTextEl rfl⟩

/-- C10: if none of the validator's four patterns occurs in the input —
no border-radius-on-mj-text match, no two-value shorthand padding match,
no section-inside-column pattern, no altless mj-image match — then
`validateAndCorrectMJML` returns the input unchanged with `isValid =
true` and empty error and warning lists. -/
theorem C10_frame (s : List Char)
    (hb : noOccScan borderMatchAt s = true)
    (hp : noOccScan padMatchAt s = true)
    (hs : hasSectionInColumn s = false)
    (ha : noOccScan altMatchAt s = true) :
    validateAndCorrectMJML s =
      { isValid := true, correctedMjml := s, errors := [], warnings := [] } := by
  have hbp := borderPass_noOcc s s.length hb
  have hpp := padPass_noOcc s s.length hp
  have hap := altPass_noOcc s s.length ha
  simp [validateAndCorrectMJML, fixInvalidAttributes, fixStructuralIssues,
    addRequiredAttributes, hbp, hpp, hap, hs]

theorem C10_frame_witness :
    (noOccScan borderMatchAt "hello world".toList = true ∧
      noOccScan padMatchAt "hello world".toList = true ∧
      hasSectionInColumn "hello world".toList = false ∧
      noOccScan altMatchAt "hello world".toList = true) ∧
    validateAndCorrectMJML "hello world".toList =
      { isValid := true, correctedMjml := "hello world".toList,
        errors := [], warnings := [] } :=
  ⟨⟨by decide, by decide, by decide, by decide⟩,
    C10_frame "hello world".toList (by decide) (by decide) (by decide)
      (by decide)⟩

end FigmaMjml
